import Mathlib

/-!
Verification of the text extraction / rewriting / catalog engine of
react-auto-i18ner, shallowly embedded from the TypeScript sources
(src/utils/TextValidator.ts, src/core/ConfigManager.ts,
src/core/I18nTransformer.ts).

Strings are modelled as `List Char`.  JavaScript strings are UTF-16 code-unit
sequences; the embedding identifies a JS string with its sequence of Unicode
scalar values, which is faithful for all contents in the Basic Multilingual
Plane (everything the program's defaults and the claims mention).
-/

namespace RAI

/-- Character of code `n` (used to keep quote and brace characters out of
string literals). -/
def chOf (n : Nat) : Char := Char.ofNat n

/-- Single quote. -/
def sq : Char := chOf 39
/-- Double quote. -/
def dq : Char := chOf 34
/-- Backslash. -/
def bsl : Char := chOf 92
/-- Opening curly brace. -/
def obr : Char := chOf 123
/-- Closing curly brace. -/
def cbr : Char := chOf 125

/-- `lo ≤ c.toNat ≤ hi`, as a Bool. -/
def btw (lo hi : Nat) (c : Char) : Bool := Nat.ble lo c.toNat && Nat.ble c.toNat hi

/-- The ECMAScript whitespace class `\s` (as also used by
`String.prototype.trim`): tab, LF, VT, FF, CR, space, NBSP and the Unicode
space separators / BOM. -/
def isWs (c : Char) : Bool :=
  btw 9 13 c || c.toNat == 32 || c.toNat == 0xA0 || c.toNat == 0x1680 ||
  btw 0x2000 0x200A c || c.toNat == 0x2028 || c.toNat == 0x2029 ||
  c.toNat == 0x202F || c.toNat == 0x205F || c.toNat == 0x3000 || c.toNat == 0xFEFF

/-- Drop the longest suffix of elements satisfying `p`. -/
def dropEnd (p : Char → Bool) (l : List Char) : List Char :=
  (l.reverse.dropWhile p).reverse

/-- `String.prototype.trim`. -/
def trim (s : List Char) : List Char :=
  dropEnd isWs (s.dropWhile isWs)

/-- ASCII digit (`\d`). -/
def isDigit (c : Char) : Bool := btw 48 57 c

/-- ASCII letter (`[a-zA-Z]`). -/
def isAsciiAlpha (c : Char) : Bool := btw 97 122 c || btw 65 90 c

/-- Word character (`\w` = `[A-Za-z0-9_]`). -/
def isWordChar (c : Char) : Bool := isAsciiAlpha c || isDigit c || c.toNat == 95

/-- The letter class `[a-zA-ZÀ-ÿ]` of TextValidator's must-contain-a-letter
check (`À` = U+00C0 … `ÿ` = U+00FF, by code point, so it also contains × and ÷). -/
def isLetterExt (c : Char) : Bool := isAsciiAlpha c || btw 0xC0 0xFF c

/-- `String.prototype.toLowerCase`, restricted to the Basic Latin and Latin-1
block (the only characters whose lowercase image can coincide with the
ASCII-only technical-term and key-derivation data of the program). -/
def toLowerJS (c : Char) : Char :=
  if btw 65 90 c then chOf (c.toNat + 32)
  else if btw 0xC0 0xDE c && c.toNat != 0xD7 then chOf (c.toNat + 32)
  else c

/-- Does `pat` occur as a (contiguous) substring of `s`?  (JS
`String.prototype.includes` / an unanchored regex literal.) -/
def containsSub (s pat : List Char) : Bool :=
  s.tails.any (fun t => pat.isPrefixOf t)

/-! ## TextValidator: validation rules (ConfigManager.getDefaultValidationRules) -/

/-- Rule severities of `ValidationRule`. -/
inductive Severity | error | warning | info
deriving DecidableEq, Repr

/-- A validation rule: name, compiled pattern (embedded as a decidable test
on the candidate text) and severity. -/
structure VRule where
  name : String
  test : List Char → Bool
  severity : Severity

/-- Test of `/'\s*\+\s*|'\s*\+\s*'/` (rule `template-literal`): some single
quote is followed, after optional whitespace, by a `+` (the second alternative
only adds a trailing context and matches a subset of the first). -/
def templateLiteralTest (s : List Char) : Bool :=
  s.tails.any (fun t =>
    match t with
    | c :: r => c == sq && ((r.dropWhile isWs).head? == some '+')
    | [] => false)

/-- Test of `/\?\s*\(|\)\s*:/` (rule `conditional-expression`). -/
def conditionalTest (s : List Char) : Bool :=
  s.tails.any (fun t =>
    match t with
    | c :: r =>
      (c == '?' && (r.dropWhile isWs).head? == some '(') ||
      (c == ')' && (r.dropWhile isWs).head? == some ':')
    | [] => false)

/-- Test of `/\{|\}|<|>/` (rule `jsx-expression`). -/
def jsxExprTest (s : List Char) : Bool :=
  s.any (fun c => c == obr || c == cbr || c == '<' || c == '>')

/-- The keyword alternatives of rule `code-keywords`. -/
def codeKeywords : List (List Char) :=
  ["import", "export", "const", "let", "var", "function", "class", "return",
   "if", "else", "for", "while", "switch", "case", "break", "continue", "try",
   "catch", "finally", "throw", "async", "await", "typeof", "instanceof"].map
    String.data

/-- Is a word-boundary-delimited occurrence of one of `kws` present
(`/\b(kw1|kw2|…)\b/`)?  `prev` is the character immediately before the
position under scrutiny. -/
def kwSearch (kws : List (List Char)) : Option Char → List Char → Bool
  | _, [] => false
  | prev, c :: r =>
    (kws.any (fun kw =>
      kw.isPrefixOf (c :: r) &&
      (match prev with
       | some p => !isWordChar p
       | none => true) &&
      (match (c :: r).drop kw.length with
       | d :: _ => !isWordChar d
       | [] => true))) ||
    kwSearch kws (some c) r

/-- Test of rule `code-keywords`. -/
def codeKeywordsTest (s : List Char) : Bool := kwSearch codeKeywords none s

/-- The unit alternatives of rule `css-units` (`px|em|rem|vh|vw|%|deg|s|ms`). -/
def cssUnits : List (List Char) :=
  ["px", "em", "rem", "vh", "vw", "%", "deg", "s", "ms"].map String.data

/-- Test of `/^\d+(px|em|rem|vh|vw|%|deg|s|ms)$/i` (rule `css-units`):
one or more digits followed by a unit, case-insensitively, spanning the
whole string. -/
def cssUnitsTest (s : List Char) : Bool :=
  let ds := s.takeWhile isDigit
  let rest := (s.drop ds.length).map toLowerJS
  !ds.isEmpty && cssUnits.any (fun u => rest == u)

/-- The prefix alternatives of rule `css-classes`. -/
def cssClassHeads : List (List Char) :=
  ["h-", "w-", "px-", "py-", "mx-", "my-", "bg-", "text-", "border-",
   "rounded-", "flex", "grid", "block", "inline", "hidden"].map String.data

/-- Test of rule `css-classes` (anchored prefix alternation). -/
def cssClassesTest (s : List Char) : Bool :=
  cssClassHeads.any (fun h => h.isPrefixOf s)

/-- Hex digit (`[0-9a-fA-F]`). -/
def isHexDigit (c : Char) : Bool := isDigit c || btw 97 102 c || btw 65 70 c

/-- Test of `/^#[0-9a-fA-F]{3,8}$/` (rule `hex-colors`). -/
def hexColorsTest (s : List Char) : Bool :=
  match s with
  | c :: r => c == '#' && r.all isHexDigit && Nat.ble 3 r.length && Nat.ble r.length 8
  | [] => false

/-- Test of `/^https?:\/\/|^www\.|^\/[\/\w.-]+/` (rule `urls`). -/
def urlsTest (s : List Char) : Bool :=
  ("http://".data.isPrefixOf s) || ("https://".data.isPrefixOf s) ||
  ("www.".data.isPrefixOf s) ||
  (match s with
   | c :: d :: _ => c == '/' && (d == '/' || isWordChar d || d == '.' || d == '-')
   | _ => false)

/-- `ConfigManager.getDefaultValidationRules`. -/
def getDefaultValidationRules : List VRule :=
  [⟨"template-literal", templateLiteralTest, Severity.error⟩,
   ⟨"conditional-expression", conditionalTest, Severity.error⟩,
   ⟨"jsx-expression", jsxExprTest, Severity.error⟩,
   ⟨"code-keywords", codeKeywordsTest, Severity.error⟩,
   ⟨"css-units", cssUnitsTest, Severity.warning⟩,
   ⟨"css-classes", cssClassesTest, Severity.warning⟩,
   ⟨"hex-colors", hexColorsTest, Severity.info⟩,
   ⟨"urls", urlsTest, Severity.info⟩]

/-- `ConfigManager.getDefaultTechnicalTerms`. -/
def getDefaultTechnicalTerms : List (List Char) :=
  ["true", "false", "null", "undefined", "NaN", "auto", "none", "inherit",
   "initial", "unset", "block", "inline", "flex", "grid", "center", "left",
   "right", "top", "bottom", "submit", "button", "text", "email", "password",
   "loading", "error", "success", "warning", "info", "debug", "GET", "POST",
   "PUT", "DELETE", "PATCH", "HEAD", "OPTIONS", "React", "Component",
   "useState", "useEffect", "useCallback", "useMemo", "JSX", "HTML", "CSS",
   "JavaScript", "TypeScript", "JSON", "XML", "API", "HTTP", "HTTPS", "URL",
   "URI", "DOM", "BOM"].map String.data

/-! ## TextValidator: isValidTranslationText -/

/-- The `validation` block of `I18nConfig`.  Custom skip patterns are
embedded as already-compiled decidable tests (the code compiles each string
with `new RegExp`, skipping, with a warning, any pattern that fails to
compile; compilation is not modelled). -/
structure ValidationCfg where
  minLength : Nat
  maxLength : Nat
  skipTechnicalTerms : Bool
  skipCodeFragments : Bool
  skipNumbers : Bool
  skipPaths : Bool
  customSkipPatterns : List (List Char → Bool)

/-- The `validation` block of `ConfigManager.getDefaultConfig`. -/
def defaultValidation : ValidationCfg :=
  ⟨2, 500, true, true, true, true, []⟩

/-- Test of `/^\d+(\.\d+)?$/` (the skip-numbers check). -/
def isNumberLit (s : List Char) : Bool :=
  let ds := s.takeWhile isDigit
  let rest := s.drop ds.length
  !ds.isEmpty &&
    (rest.isEmpty ||
     (match rest with
      | c :: ds2 => c == '.' && !ds2.isEmpty && ds2.all isDigit
      | [] => false))

/-- Does the string end in `\.[a-zA-Z]{2,4}$`: a dot followed by exactly
`j ∈ [2,4]` ASCII letters reaching the end of the string? -/
def extAt (r : List Char) (j : Nat) : Bool :=
  (r.take j).length == j && (r.take j).all isAsciiAlpha && r.get? j == some '.'

/-- `TextValidator.isPath`. -/
def isPath (text : List Char) : Bool :=
  -- File paths: /^[.\/]/ or /^[a-zA-Z]:\\/
  (match text with
   | c :: _ => c == '.' || c == '/'
   | [] => false) ||
  (match text with
   | a :: b :: c :: _ => isAsciiAlpha a && b == ':' && c == bsl
   | _ => false) ||
  -- URLs: /^https?:\/\// or /^www\./
  ("http://".data.isPrefixOf text) || ("https://".data.isPrefixOf text) ||
  ("www.".data.isPrefixOf text) ||
  -- Relative paths: contains '/' and no space
  (text.contains '/' && !text.contains ' ') ||
  -- File extensions: /\.[a-zA-Z]{2,4}$/
  (extAt text.reverse 2 || extAt text.reverse 3 || extAt text.reverse 4)

/-- `TextValidator.isValidTranslationText` (with the default rule set and
technical-terms set; the per-reason skip counters are advisory diagnostics
and not modelled). -/
def isValidTranslationText (cfg : ValidationCfg) (text : List Char) : Bool :=
  -- `if (!text || typeof text !== 'string')`: the empty string is falsy
  if text.isEmpty then false
  else
    let cleanText := trim text
    -- Basic length validation
    if cleanText.length < cfg.minLength then false
    else if cleanText.length > cfg.maxLength then false
    -- Skip technical terms if configured
    else if cfg.skipTechnicalTerms &&
        getDefaultTechnicalTerms.contains (cleanText.map toLowerJS) then false
    -- Skip numbers if configured
    else if cfg.skipNumbers && isNumberLit cleanText then false
    -- Skip paths if configured
    else if cfg.skipPaths && isPath cleanText then false
    -- Apply validation rules (only severity 'error' can reject)
    else if cfg.skipCodeFragments &&
        getDefaultValidationRules.any
          (fun r => r.severity == Severity.error && r.test cleanText) then false
    -- Apply custom skip patterns
    else if cfg.customSkipPatterns.any (fun p => p cleanText) then false
    -- Must contain at least one letter: /[a-zA-ZÀ-ÿ]/
    else if !cleanText.any isLetterExt then false
    -- Skip if it is just symbols or punctuation: /^[^\w\s]+$/
    else if !cleanText.isEmpty && cleanText.all (fun c => !isWordChar c && !isWs c)
      then false
    else true

/-! ## TextValidator: key-name derivation (suggestKeyName and helpers) -/

/-- Wrap an integer into the signed 32-bit range (JS `x & x` after 32-bit
bitwise ops, i.e. ToInt32). -/
def wrap32 (z : Int) : Int := (z + 2 ^ 31) % 2 ^ 32 - 2 ^ 31

/-- One step of `TextValidator.createHash`:
`hash = (hash << 5) - hash + charCode; hash = hash & hash`. -/
def hashStep (h : Int) (c : Char) : Int :=
  wrap32 (wrap32 (h * 32) - h + (c.toNat : Int))

/-- Digit character for `Number.prototype.toString(36)`. -/
def digit36 (n : Nat) : Char := if n < 10 then chOf (48 + n) else chOf (87 + n)

/-- Digit-accumulating loop for `toBase36`; the fuel is an upper bound on the
number of divisions (the starting number itself more than suffices). -/
def toBase36Go : Nat → Nat → List Char → List Char
  | 0, n, acc => digit36 (n % 36) :: acc
  | fuel + 1, n, acc =>
    if n < 36 then digit36 n :: acc
    else toBase36Go fuel (n / 36) (digit36 (n % 36) :: acc)

/-- Base-36 rendering of a natural number (as `Number.prototype.toString(36)`
renders a non-negative integer). -/
def toBase36 (n : Nat) : List Char := toBase36Go n n []

/-- `TextValidator.createHash`. -/
def createHash (text : List Char) : List Char :=
  "text_".data ++ toBase36 (text.foldl hashStep 0).natAbs

/-- State machine for `.replace(/\s+/g, '_')`: the flag records whether the
previous character belonged to a whitespace run already rewritten. -/
def collapseWsGo : Bool → List Char → List Char
  | _, [] => []
  | prevWs, c :: r =>
    if isWs c then
      if prevWs then collapseWsGo true r else '_' :: collapseWsGo true r
    else c :: collapseWsGo false r

/-- Replace every maximal whitespace run by a single underscore
(`.replace(/\s+/g, '_')`). -/
def collapseWs (s : List Char) : List Char := collapseWsGo false s

/-- `TextValidator.createPathBasedKey`:
lower-case, strip `[^a-z0-9\s]`, trim, collapse whitespace to `_`, truncate
to 50 characters. -/
def createPathBasedKey (text : List Char) : List Char :=
  let lowered := text.map toLowerJS
  let stripped := lowered.filter (fun c => btw 97 122 c || isDigit c || isWs c)
  (collapseWs (trim stripped)).take 50

mutual

/-- `split(/\s+/)`, collecting the current piece (reversed) while outside a
whitespace run. -/
def splitWsGo : List Char → List Char → List (List Char)
  | acc, [] => [acc.reverse]
  | acc, c :: r =>
    if isWs c then acc.reverse :: splitWsSkip r
    else splitWsGo (c :: acc) r

/-- `split(/\s+/)`, inside a whitespace run (a run that reaches the end of
the string contributes a trailing empty piece, as in JS). -/
def splitWsSkip : List Char → List (List Char)
  | [] => [[]]
  | c :: r => if isWs c then splitWsSkip r else splitWsGo [c] r

end

/-- `String.prototype.split(/\s+/)`: pieces between maximal whitespace runs
(with an empty leading piece when the string starts with whitespace, and an
empty trailing piece when it ends with one). -/
def splitWs (s : List Char) : List (List Char) := splitWsGo [] s

/-- `TextValidator.createCustomKey`: first three whitespace-separated words,
lower-cased with `[^a-z]` stripped, non-empty ones joined with `_`. -/
def createCustomKey (text : List Char) : List Char :=
  let words := (splitWs text).take 3
  let mapped := words.map (fun w => (w.map toLowerJS).filter (btw 97 122))
  List.intercalate ['_'] (mapped.filter (fun w => !w.isEmpty))

/-- The `keyStrategy` selector of `config.format`. -/
inductive KeyStrategy | text | hash | path | custom
deriving DecidableEq, Repr

/-- `TextValidator.suggestKeyName`. -/
def suggestKeyName (strategy : KeyStrategy) (text : List Char) : List Char :=
  let cleanText := trim text
  match strategy with
  | KeyStrategy.hash => createHash cleanText
  | KeyStrategy.path => createPathBasedKey cleanText
  | KeyStrategy.custom => createCustomKey cleanText
  | KeyStrategy.text => cleanText

/-! ## The key registry (I18nTransformer.translationKeys / getOrCreateKey) -/

/-- The in-memory `Map<string, string>` from source text to key, in insertion
order (a JS `Map` preserves insertion order and `set` on a fresh key
appends). -/
abbrev Registry := List (List Char × List Char)

/-- `Map.prototype.get`/`has` on the registry. -/
def regLookup (R : Registry) (t : List Char) : Option (List Char) :=
  (R.find? (fun p => p.1 == t)).map (fun p => p.2)

/-- `I18nTransformer.getOrCreateKey`: trim, return the registered key if the
text is known, otherwise derive a key with the configured strategy and record
the association. -/
def getOrCreateKey (strat : KeyStrategy) (R : Registry) (text : List Char) :
    List Char × Registry :=
  let cleanText := trim text
  match regLookup R cleanText with
  | some k => (k, R)
  | none =>
    let key := suggestKeyName strat cleanText
    (key, R ++ [(cleanText, key)])

/-- Register a sequence of texts in order (the accumulated effect of the
`getOrCreateKey` calls of one run). -/
def registerAll (strat : KeyStrategy) (R : Registry) (ts : List (List Char)) :
    Registry :=
  ts.foldl (fun R t => (getOrCreateKey strat R t).2) R

/-! ## The regex scanners of the rewrite pass

`String.prototype.replace(regex, fn)` with a global regex finds
non-overlapping matches left to right (restarting one character further on a
failed attempt, and just past the consumed match on a successful one) and
substitutes the callback's value; the callback may return the match itself to
leave it unchanged.  The two patterns of `transformJSXElements` are embedded
as segmenting scanners, so that extraction and rewriting provably walk the
same matches. -/

/-- A segment of the scan of `/>([^<>{]+)</g`: either a copied character or a
match with capture `x`. -/
inductive JSeg
  | plain (c : Char)
  | jmatch (x : List Char)
deriving DecidableEq, Repr

/-- Stop characters of the capture class `[^<>{]`. -/
def jsxStop (c : Char) : Bool := c == '<' || c == '>' || c == obr

/-- Fuel-driven scanner loop for `/>([^<>{]+)</g`; the fuel bounds the number
of scan steps (each step strictly shortens the remaining input, so the
input's length suffices). -/
def scanJsxGo : Nat → List Char → List JSeg
  | 0, _ => []
  | _ + 1, [] => []
  | fuel + 1, c :: rest =>
    if c == '>' then
      let x := rest.takeWhile (fun d => !jsxStop d)
      match rest.drop x.length with
      | d :: after =>
        if d == '<' && !x.isEmpty then JSeg.jmatch x :: scanJsxGo fuel after
        else JSeg.plain '>' :: scanJsxGo fuel rest
      | [] => JSeg.plain '>' :: scanJsxGo fuel rest
    else JSeg.plain c :: scanJsxGo fuel rest

/-- Scanner for `/>([^<>{]+)</g`. -/
def scanJsx (s : List Char) : List JSeg := scanJsxGo s.length s

/-- The source text a `JSeg` stands for. -/
def jsegRaw : JSeg → List Char
  | JSeg.plain c => [c]
  | JSeg.jmatch x => '>' :: (x ++ ['<'])

/-- Concatenated source text of a segment list. -/
def rawOfJ : List JSeg → List Char
  | [] => []
  | s :: r => jsegRaw s ++ rawOfJ r

/-- The marker `{t('`. -/
def guardT1 : List Char := [obr, 't', '(', sq]
/-- The marker `t("`. -/
def guardT2 : List Char := ['t', '(', dq]

/-- The already-transformed guard on a JSX-text match:
`match.includes("{t('") || match.includes('t("')`. -/
def jsxGuard (x : List Char) : Bool :=
  containsSub (jsegRaw (JSeg.jmatch x)) guardT1 ||
  containsSub (jsegRaw (JSeg.jmatch x)) guardT2

/-- `key.replace(/'/g, "\\'")`. -/
def escQ (k : List Char) : List Char :=
  k.foldr (fun c acc => if c == sq then bsl :: sq :: acc else c :: acc) []

/-- The replacement of a JSX-text match: `>{t('KEY')}<`. -/
def jsxWrap (k : List Char) : List Char :=
  '>' :: obr :: 't' :: '(' :: sq :: (escQ k ++ [sq, ')', cbr, '<'])

/-- Output of a rewrite pass: transformed content, updated registry,
replacement count. -/
structure TOut where
  content : List Char
  reg : Registry
  count : Nat
deriving DecidableEq, Repr

/-- The JSX-text branch of `transformJSXElements`, run over the scanned
segments (the callback of `content.replace(jsxTextPattern, …)`). -/
def runJsxSegs (V : List Char → Bool) (strat : KeyStrategy) :
    List JSeg → Registry → TOut
  | [], R => ⟨[], R, 0⟩
  | JSeg.plain c :: segs, R =>
    let o := runJsxSegs V strat segs R
    ⟨c :: o.content, o.reg, o.count⟩
  | JSeg.jmatch x :: segs, R =>
    if jsxGuard x then
      let o := runJsxSegs V strat segs R
      ⟨jsegRaw (JSeg.jmatch x) ++ o.content, o.reg, o.count⟩
    else
      let cleanText := trim x
      if V cleanText then
        let kr := getOrCreateKey strat R cleanText
        let o := runJsxSegs V strat segs kr.2
        ⟨jsxWrap kr.1 ++ o.content, o.reg, o.count + 1⟩
      else
        let o := runJsxSegs V strat segs R
        ⟨jsegRaw (JSeg.jmatch x) ++ o.content, o.reg, o.count⟩

/-- A segment of the scan of an attribute pattern
`attr=["']([^"']+)["']`: copied character, or match `attr=` `q` `x` `q2`. -/
inductive ASeg
  | plain (c : Char)
  | amatch (q : Char) (x : List Char) (q2 : Char)
deriving DecidableEq, Repr

/-- The quote class `["']`. -/
def isQuote (c : Char) : Bool := c == dq || c == sq

/-- Fuel-driven scanner loop for `attrName=["']([^"']+)["']` (global); the
fuel bounds the number of scan steps. -/
def scanAttrGo (name : List Char) : Nat → List Char → List ASeg
  | 0, _ => []
  | _ + 1, [] => []
  | fuel + 1, c :: rest =>
    if (name ++ ['=']).isPrefixOf (c :: rest) then
      match (c :: rest).drop (name.length + 1) with
      | q :: r2 =>
        if isQuote q then
          let x := r2.takeWhile (fun d => !isQuote d)
          match r2.drop x.length with
          | q2 :: after =>
            if x.isEmpty then ASeg.plain c :: scanAttrGo name fuel rest
            else ASeg.amatch q x q2 :: scanAttrGo name fuel after
          | [] => ASeg.plain c :: scanAttrGo name fuel rest
        else ASeg.plain c :: scanAttrGo name fuel rest
      | [] => ASeg.plain c :: scanAttrGo name fuel rest
    else ASeg.plain c :: scanAttrGo name fuel rest

/-- Scanner for `attrName=["']([^"']+)["']` (global). -/
def scanAttr (name : List Char) (s : List Char) : List ASeg :=
  scanAttrGo name s.length s

/-- The source text an `ASeg` stands for. -/
def asegRaw (name : List Char) : ASeg → List Char
  | ASeg.plain c => [c]
  | ASeg.amatch q x q2 => name ++ '=' :: q :: (x ++ [q2])

/-- Concatenated source text of an attribute segment list. -/
def rawOfA (name : List Char) : List ASeg → List Char
  | [] => []
  | s :: r => asegRaw name s ++ rawOfA name r

/-- The already-transformed guard on an attribute match. -/
def attrGuard (name : List Char) (q : Char) (x : List Char) (q2 : Char) : Bool :=
  containsSub (asegRaw name (ASeg.amatch q x q2)) guardT1 ||
  containsSub (asegRaw name (ASeg.amatch q x q2)) guardT2

/-- The replacement of an attribute match: `attr={t('KEY')}`, where `attr` is
`match.split('=')[0]`, i.e. the attribute name (no attribute name contains
`=`). -/
def attrWrap (name : List Char) (k : List Char) : List Char :=
  name ++ '=' :: obr :: 't' :: '(' :: sq :: (escQ k ++ [sq, ')', cbr])

/-- The attribute branch of `transformJSXElements` for one pattern, run over
the scanned segments. -/
def runAttrSegs (V : List Char → Bool) (strat : KeyStrategy) (name : List Char) :
    List ASeg → Registry → TOut
  | [], R => ⟨[], R, 0⟩
  | ASeg.plain c :: segs, R =>
    let o := runAttrSegs V strat name segs R
    ⟨c :: o.content, o.reg, o.count⟩
  | ASeg.amatch q x q2 :: segs, R =>
    if attrGuard name q x q2 then
      let o := runAttrSegs V strat name segs R
      ⟨asegRaw name (ASeg.amatch q x q2) ++ o.content, o.reg, o.count⟩
    else if V x then
      let kr := getOrCreateKey strat R x
      let o := runAttrSegs V strat name segs kr.2
      ⟨attrWrap name kr.1 ++ o.content, o.reg, o.count + 1⟩
    else
      let o := runAttrSegs V strat name segs R
      ⟨asegRaw name (ASeg.amatch q x q2) ++ o.content, o.reg, o.count⟩

/-- One pass of `content.replace(jsxTextPattern, …)`. -/
def replaceJsxPass (V : List Char → Bool) (strat : KeyStrategy) (R : Registry)
    (content : List Char) : TOut :=
  runJsxSegs V strat (scanJsx content) R

/-- One pass of `content.replace(attrPattern, …)`. -/
def replaceAttrPass (V : List Char → Bool) (strat : KeyStrategy)
    (name : List Char) (R : Registry) (content : List Char) : TOut :=
  runAttrSegs V strat name (scanAttr name content) R

/-- The four attribute patterns, in source order. -/
def attrNames : List (List Char) :=
  ["placeholder", "title", "alt", "aria-label"].map String.data

/-- `I18nTransformer.transformJSXElements`: the JSX-text pass followed by the
four attribute passes, threading content, registry and count.  (The method
writes the content back with `replaceWithText` only when the count is
positive; when the count is zero every match was returned unchanged, so the
transformed content coincides with the input and the returned content is the
file's content in either case.) -/
def transformJSXElements (V : List Char → Bool) (strat : KeyStrategy)
    (R : Registry) (content : List Char) : TOut :=
  let o0 := replaceJsxPass V strat R content
  attrNames.foldl (fun o name =>
    let o2 := replaceAttrPass V strat name o.reg o.content
    ⟨o2.content, o2.reg, o.count + o2.count⟩) o0

/-! ## The extraction pass (I18nTransformer.extractTexts) -/

/-- `extractJSXText`: the valid captures of the JSX-text pattern, trimmed,
each registered with the key registry (positions, used only for reporting,
are not modelled). -/
def extractJsxTexts (V : List Char → Bool) (strat : KeyStrategy) :
    List JSeg → Registry → List (List Char × List Char) × Registry
  | [], R => ([], R)
  | JSeg.plain _ :: segs, R => extractJsxTexts V strat segs R
  | JSeg.jmatch x :: segs, R =>
    let text := trim x
    if V text then
      let kr := getOrCreateKey strat R text
      let rest := extractJsxTexts V strat segs kr.2
      ((text, kr.1) :: rest.1, rest.2)
    else extractJsxTexts V strat segs R

/-- `extractAttributes` for one pattern. -/
def extractAttrTexts (V : List Char → Bool) (strat : KeyStrategy) :
    List ASeg → Registry → List (List Char × List Char) × Registry
  | [], R => ([], R)
  | ASeg.plain _ :: segs, R => extractAttrTexts V strat segs R
  | ASeg.amatch _ x _ :: segs, R =>
    let text := trim x
    if V text then
      let kr := getOrCreateKey strat R text
      let rest := extractAttrTexts V strat segs kr.2
      ((text, kr.1) :: rest.1, rest.2)
    else extractAttrTexts V strat segs R

/-- `I18nTransformer.extractTexts` (both transformation flags at their
defaults, i.e. enabled). -/
def extractTexts (V : List Char → Bool) (strat : KeyStrategy) (R : Registry)
    (content : List Char) : List (List Char × List Char) × Registry :=
  let j := extractJsxTexts V strat (scanJsx content) R
  attrNames.foldl (fun acc name =>
    let a := extractAttrTexts V strat (scanAttr name content) acc.2
    (acc.1 ++ a.1, a.2)) j

/-- `I18nTransformer.hasExtractableText`: does any JSX-text or attribute
match carry text accepted by the validator? -/
def hasExtractableText (V : List Char → Bool) (content : List Char) : Bool :=
  ((scanJsx content).any (fun s =>
    match s with
    | JSeg.jmatch x => V x
    | _ => false)) ||
  (attrNames.any (fun name =>
    (scanAttr name content).any (fun s =>
      match s with
      | ASeg.amatch _ x _ => V x
      | _ => false)))

/-! ## The catalog writer (I18nTransformer.generateTranslationFiles) -/

/-- JS object assignment `o[k] = v` on a string-keyed record: an existing key
keeps its position and gets the new value, a fresh key is appended. -/
def objInsert : List (List Char × List Char) → List Char → List Char →
    List (List Char × List Char)
  | [], k, v => [(k, v)]
  | p :: r, k, v => if p.1 == k then (k, v) :: r else p :: objInsert r k v

/-- JS property read `o[k]` on a string-keyed record. -/
def objLookup (o : List (List Char × List Char)) (k : List Char) :
    Option (List Char) :=
  (o.find? (fun p => p.1 == k)).map (fun p => p.2)

/-- Is `o[key]` falsy (`!targetTranslations[key]`): the property is absent or
the empty string?  (Catalog values are modelled as strings.) -/
def jsFalsy : Option (List Char) → Bool
  | none => true
  | some v => v.isEmpty

/-- The target-catalog merge step of `generateTranslationFiles`: for every
source-catalog key, if the target binding is falsy, assign the empty string.
(Key sorting only permutes the record and does not affect the mapping.) -/
def mergeTarget (srcKeys : List (List Char))
    (tgt : List (List Char × List Char)) : List (List Char × List Char) :=
  srcKeys.foldl (fun o k => if jsFalsy (objLookup o k) then objInsert o k [] else o) tgt

/-- The source-catalog record of `generateTranslationFiles`: iterating the
registry in insertion order, `sourceTranslations[key] = text` (a later text
with the same key overwrites the earlier one). -/
def catalogOf (R : Registry) : List (List Char × List Char) :=
  R.foldl (fun o p => objInsert o p.2 p.1) []

/-- `I18nTransformer.loadExistingTranslations`: each catalog pair
`(key, text)` whose text passes validation is inserted into the registry in
reverse, as text ↦ key. -/
def seedFrom (V : List Char → Bool) (cat : List (List Char × List Char)) :
    Registry :=
  cat.foldl (fun M p => if V p.2 then objInsert M p.2 p.1 else M) []

/-! ## Component analysis (I18nTransformer.analyzeComponent) -/

/-- The `ComponentInfo.type` values. -/
inductive CompType | functionComp | arrowComp | classComp | forwardRefComp
deriving DecidableEq, Repr

/-- A function declaration of the source file (name, if any, and whether it
is exported). -/
structure FnDecl where
  fname : Option (List Char)
  exported : Bool
deriving DecidableEq, Repr

/-- A variable declaration (its name, and whether its initializer is an
arrow-function or function expression). -/
structure VarDecl where
  vname : List Char
  fnLike : Bool
deriving DecidableEq, Repr

/-- A class declaration of the source file. -/
structure ClsDecl where
  cname : Option (List Char)
  exported : Bool
deriving DecidableEq, Repr

/-- The shape of a parsed source file, as `analyzeComponent` inspects it:
base file name, function declarations, variable statements (each a list of
declarations), class declarations. -/
structure SFModel where
  fileName : List Char
  functions : List FnDecl
  varStmts : List (List VarDecl)
  classes : List ClsDecl
deriving DecidableEq, Repr

/-- The component-name/type detection of `I18nTransformer.analyzeComponent`:
if there are function declarations, the first exported one names a
function-style component; otherwise, if there are variable statements, each
statement's first arrow/function-bound declaration marks an arrow-style
component (the inner loop breaks, the outer loop keeps scanning, so a later
statement overwrites an earlier result); otherwise, if there are classes, the
first exported one names a class-style component; otherwise the defaults
(file name, function style) stand. -/
def analyzeComponent (sf : SFModel) : List Char × CompType :=
  let base := (sf.fileName, CompType.functionComp)
  if !sf.functions.isEmpty then
    match sf.functions.find? (fun f => f.exported) with
    | some f => (f.fname.getD sf.fileName, CompType.functionComp)
    | none => base
  else if !sf.varStmts.isEmpty then
    sf.varStmts.foldl (fun acc stmt =>
      match stmt.find? (fun d => d.fnLike) with
      | some d => (d.vname, CompType.arrowComp)
      | none => acc) base
  else if !sf.classes.isEmpty then
    match sf.classes.find? (fun c => c.exported) with
    | some c => (c.cname.getD sf.fileName, CompType.classComp)
    | none => base
  else base

/-! ## The transformation run (I18nTransformer.transform / transformFile) -/

/-- The `components` block of the configuration. -/
structure ComponentsCfg where
  addUseTranslationHook : Bool
  supportClassComponents : Bool
  customHookImport : List Char
deriving DecidableEq, Repr

/-- `I18nTransformer.shouldAddImport`: no existing import references
`react-i18next` or the configured custom hook module. -/
def shouldAddImport (cfg : ComponentsCfg) (imports : List (List Char)) : Bool :=
  !(imports.any (fun m => m == "react-i18next".data || m == cfg.customHookImport))

/-- The fields of `ComponentInfo` that drive the hook decision. -/
structure CompInfo where
  cname : List Char
  ctype : CompType
  hasUseTranslation : Bool
  needsTranslation : Bool
deriving DecidableEq, Repr

/-- `I18nTransformer.analyzeComponent`, assembled into a `ComponentInfo`. -/
def analyzeComponentInfo (cfg : ComponentsCfg) (V : List Char → Bool)
    (sf : SFModel) (imports : List (List Char)) (content : List Char) : CompInfo :=
  let nt := analyzeComponent sf
  { cname := nt.1
    ctype := nt.2
    hasUseTranslation :=
      imports.any (fun m => m == "react-i18next".data || m == cfg.customHookImport)
    needsTranslation := hasExtractableText V content }

/-- `I18nTransformer.shouldAddHook`. -/
def shouldAddHook (cfg : ComponentsCfg) (info : CompInfo) : Bool :=
  cfg.addUseTranslationHook && !info.hasUseTranslation && info.needsTranslation &&
  !(info.ctype == CompType.classComp && !cfg.supportClassComponents)

/-- The loaded body of one source file. -/
structure TFileBody where
  content : List Char
  imports : List (List Char)
  sf : SFModel

/-- One discovered file: its path, and either its loaded body or the error
thrown while reading/parsing/saving it. -/
structure FileSlot where
  path : List Char
  load : Except (List Char) TFileBody

/-- Outcome of `transformFile` on one loaded file. -/
structure FileOut where
  content : List Char
  saved : Bool
  importAdded : Bool
  hookAdded : Bool
  extractions : List (List Char × List Char)
  count : Nat
  reg : Registry

/-- `I18nTransformer.transformFile` on a loaded file body.  `applyImport` and
`applyHook` stand for the AST edits of `addTranslationImport` and
`addTranslationHook`; the file is saved (re-written) iff any of the four
change triggers fired, otherwise the file on disk keeps its original bytes. -/
def transformFileModel (cfg : ComponentsCfg) (V : List Char → Bool)
    (strat : KeyStrategy) (applyImport applyHook : List Char → List Char)
    (R : Registry) (f : TFileBody) : FileOut :=
  let info := analyzeComponentInfo cfg V f.sf f.imports f.content
  let addImp := shouldAddImport cfg f.imports
  let c1 := if addImp then applyImport f.content else f.content
  let ext := extractTexts V strat R c1
  let tjo := transformJSXElements V strat ext.2 c1
  let addHk := shouldAddHook cfg info
  let c3 := if addHk then applyHook tjo.content else tjo.content
  let hasChanges := addImp || !ext.1.isEmpty || decide (0 < tjo.count) || addHk
  { content := if hasChanges then c3 else f.content
    saved := hasChanges
    importAdded := addImp
    hookAdded := addHk
    extractions := ext.1
    count := tjo.count
    reg := tjo.reg }

/-- The mutable statistics of a run (the fields the claims are about;
the remaining counters are analogous). -/
structure StatsM where
  filesProcessed : Nat
  textsTransformed : Nat
  importsAdded : Nat
  hooksAdded : Nat
  errors : List (List Char)
deriving DecidableEq, Repr

/-- Fresh statistics (`resetStats`). -/
def statsInit : StatsM := ⟨0, 0, 0, 0, []⟩

/-- State carried through the per-file loop: statistics, registry, and the
list of files actually written to disk (with their new content). -/
structure LoopState where
  stats : StatsM
  reg : Registry
  written : List (List Char × List Char)

/-- One iteration of the `for (const filePath of files)` loop: a throwing
file is caught, its message is appended to `stats.errors`, and the loop
continues; a processed file bumps the counters and is written back only when
it changed. -/
def processSlot (cfg : ComponentsCfg) (V : List Char → Bool)
    (strat : KeyStrategy) (applyImport applyHook : List Char → List Char)
    (st : LoopState) (slot : FileSlot) : LoopState :=
  match slot.load with
  | Except.error e =>
    { st with stats :=
        { st.stats with errors :=
            st.stats.errors ++ ["Error transforming ".data ++ slot.path ++ ": ".data ++ e] } }
  | Except.ok body =>
    let fo := transformFileModel cfg V strat applyImport applyHook st.reg body
    { stats :=
        { st.stats with
          filesProcessed := st.stats.filesProcessed + 1
          textsTransformed := st.stats.textsTransformed + fo.count
          importsAdded := st.stats.importsAdded + (if fo.importAdded then 1 else 0)
          hooksAdded := st.stats.hooksAdded + (if fo.hookAdded then 1 else 0) }
      reg := fo.reg
      written := st.written ++ (if fo.saved then [(slot.path, fo.content)] else []) }

/-- The observable result of a run (`TransformationResult`, with the list of
performed writes kept alongside for the frame claims). -/
structure ResultM where
  success : Bool
  stats : StatsM
  reg : Registry
  modifiedFiles : List (List Char)
  written : List (List Char × List Char)
deriving Repr

/-- A run description: whether a backup is configured and how the two
fallible whole-run steps (backup creation, catalog generation) turn out,
plus the discovered file list. -/
structure RunSpec where
  createBackup : Bool
  backupResult : Except (List Char) Unit
  files : List FileSlot
  catalogResult : Except (List Char) Unit

/-- `I18nTransformer.transform`: backup (when configured) and catalog
generation run inside the try block, so their errors abort the run with
`success: false`, the statistics accumulated so far and an empty
`modifiedFiles`; each file is processed in an isolated try/catch; on success
`modifiedFiles` is the full discovered file list. -/
def transformRun (cfg : ComponentsCfg) (V : List Char → Bool)
    (strat : KeyStrategy) (applyImport applyHook : List Char → List Char)
    (R0 : Registry) (spec : RunSpec) : ResultM :=
  match spec.createBackup, spec.backupResult with
  | true, Except.error e =>
    { success := false
      stats := { statsInit with errors := ["Transformation failed: ".data ++ e] }
      reg := R0
      modifiedFiles := []
      written := [] }
  | _, _ =>
    let st := spec.files.foldl
      (processSlot cfg V strat applyImport applyHook) ⟨statsInit, R0, []⟩
    match spec.catalogResult with
    | Except.error e =>
      { success := false
        stats := { st.stats with errors :=
            st.stats.errors ++ ["Transformation failed: ".data ++ e] }
        reg := st.reg
        modifiedFiles := []
        written := st.written }
    | Except.ok _ =>
      { success := true
        stats := st.stats
        reg := st.reg
        modifiedFiles := spec.files.map (fun s => s.path)
        written := st.written }

/-! ## Cleanliness of keys (for the idempotence analysis) -/

/-- No character of `l` is a stop character of the JSX-text capture class
`[^<>\x7b]`. -/
def jsxClean (l : List Char) : Bool := l.all (fun c => !jsxStop c)

/-- Every key recorded in the registry is free of the JSX stop characters.
(The keys the text strategy derives are substrings of captured interiors and
satisfy this automatically; a registry seeded from a hand-edited catalog file
need not.) -/
def regClean (R : Registry) : Bool := R.all (fun p => jsxClean p.2)

/-- A quote-cascade input for the idempotence claim: the attribute value of
the first `placeholder` ends in the characters `placeholder=`, so rewriting
it realigns the quote cells of the remainder and a second application of
`transformJSXElements` finds (and wraps) a fresh match. -/
def cexC2 : List Char :=
  "placeholder=".data ++ sq :: "placeholder=".data ++ sq :: cbr :: "a ".data ++
  "placeholder=".data ++ sq :: cbr :: "b ".data ++
  "placeholder=".data ++ sq :: "Aa".data ++ [sq]

/-! ## Concrete run fixtures for the whole-run claims -/

/-- A loaded file that needs no change at all: it already imports
`react-i18next` and its content has no extractable text. -/
def bodyA : TFileBody :=
  { content := "<x></x>".data
    imports := ["react-i18next".data]
    sf := { fileName := "App".data, functions := [], varStmts := [], classes := [] } }

/-- The slot of `bodyA` in the discovered file list. -/
def slotA : FileSlot := { path := "src/App.tsx".data, load := Except.ok bodyA }

/-- A file whose transformation throws. -/
def slotBad : FileSlot :=
  { path := "src/Bad.tsx".data, load := Except.error "fail".data }

/-- A components configuration with both features on and no custom hook. -/
def cfgA : ComponentsCfg :=
  { addUseTranslationHook := true
    supportClassComponents := true
    customHookImport := [] }

/-- A run over the single unchanged file, with backup off and a catalog
generation that succeeds. -/
def specA : RunSpec :=
  { createBackup := false
    backupResult := Except.ok ()
    files := [slotA]
    catalogResult := Except.ok () }

/-- A run whose catalog generation throws after the files were processed. -/
def specCatErr : RunSpec :=
  { createBackup := false
    backupResult := Except.ok ()
    files := [slotA, slotBad]
    catalogResult := Except.error "nodir".data }

/-- A run whose backup creation throws. -/
def specBakErr : RunSpec :=
  { createBackup := true
    backupResult := Except.error "copy".data
    files := [slotA]
    catalogResult := Except.ok () }

/-! ## Theorems -/

/-- The validator used by the claims: `isValidTranslationText` under the
default configuration. -/
def validDefault : List Char → Bool := isValidTranslationText defaultValidation

/-- C1: under the default configuration the classifier rejects "true",
"123", "./src/x" and "\<div\>" and accepts "Save Changes" as claimed — but it
accepts "100px", contradicting the claim (and the repository's own
TextValidator test): the `css-units` rule carries severity `warning`, and
`isValidTranslationText` rejects only on severity-`error` rules. -/
theorem C1_classifier_divergence_at_100px :
    validDefault "true".data = false ∧
    validDefault "123".data = false ∧
    validDefault "./src/x".data = false ∧
    validDefault "<div>".data = false ∧
    validDefault "Save Changes".data = true ∧
    validDefault "100px".data = true := by
  decide

/-- C10: the text "Àéè Ôû" (letters all in the extended-Latin range) is
accepted by the classifier, yet both the path and the custom key strategies
derive the empty string for it, so `getOrCreateKey` registers it under the
empty key. -/
theorem C10_extended_latin_empty_keys :
    validDefault "Àéè Ôû".data = true ∧
    (getOrCreateKey KeyStrategy.path [] "Àéè Ôû".data).1 = [] ∧
    (getOrCreateKey KeyStrategy.custom [] "Àéè Ôû".data).1 = [] ∧
    (getOrCreateKey KeyStrategy.path [] "Àéè Ôû".data).2 =
      [("Àéè Ôû".data, [])] := by
  decide

/-! ### Trimming lemmas -/

theorem dropWhile_dropWhile (p : Char → Bool) (l : List Char) :
    (l.dropWhile p).dropWhile p = l.dropWhile p := by
  induction l with
  | nil => rfl
  | cons c r ih =>
    rw [List.dropWhile_cons]
    split
    · exact ih
    · rw [List.dropWhile_cons]
      simp [*]

theorem dropWhile_single (p : Char → Bool) (u : List Char) (c : Char) :
    (u ++ [c]).dropWhile p =
      if (u.dropWhile p).isEmpty then (if p c then [] else [c])
      else u.dropWhile p ++ [c] := by
  induction u with
  | nil =>
    cases hpc : p c <;> simp [List.dropWhile, hpc, List.isEmpty]
  | cons a r ih =>
    rw [List.cons_append, List.dropWhile_cons, List.dropWhile_cons]
    split
    · exact ih
    · simp [List.isEmpty]

theorem dropEnd_cons (p : Char → Bool) (c : Char) (r : List Char) :
    dropEnd p (c :: r) = [] ∨ ∃ r2, dropEnd p (c :: r) = c :: r2 := by
  unfold dropEnd
  rw [List.reverse_cons, dropWhile_single]
  split
  · split
    · left; rfl
    · right; exact ⟨[], rfl⟩
  · right
    exact ⟨(List.dropWhile p r.reverse).reverse, by simp⟩

theorem dropEnd_dropEnd (p : Char → Bool) (l : List Char) :
    dropEnd p (dropEnd p l) = dropEnd p l := by
  unfold dropEnd
  rw [List.reverse_reverse, dropWhile_dropWhile]

theorem dropWhile_head_false (p : Char → Bool) (l : List Char) (c : Char)
    (r : List Char) (h : l.dropWhile p = c :: r) : p c = false := by
  induction l with
  | nil => simp [List.dropWhile] at h
  | cons a m ih =>
    rw [List.dropWhile_cons] at h
    by_cases hp : p a = true
    · simp [hp] at h
      exact ih h
    · simp [hp] at h
      rw [← h.1]
      simp [hp]

/-- Trimming is idempotent. -/
theorem trim_trim (s : List Char) : trim (trim s) = trim s := by
  unfold trim
  have h1 : (dropEnd isWs (s.dropWhile isWs)).dropWhile isWs
      = dropEnd isWs (s.dropWhile isWs) := by
    cases hA : s.dropWhile isWs with
    | nil => simp [dropEnd, List.dropWhile]
    | cons c r =>
      have hc : isWs c = false := dropWhile_head_false isWs s c r hA
      rcases dropEnd_cons isWs c r with h | ⟨r2, h⟩
      · rw [h]; rfl
      · rw [h, List.dropWhile_cons, hc]
        simp
  rw [h1, dropEnd_dropEnd]

/-! ### C4: registry injectivity -/

/-- C4 counterexample: the hash strategy assigns the same key to the distinct
texts "Aa" and "BB" (the 31-multiplier string hash collides, both yielding
`text_1mo`), so a key can be assigned to two different texts. -/
theorem C4_hash_collision_counterexample :
    (getOrCreateKey KeyStrategy.hash [] "Aa".data).1 =
      (getOrCreateKey KeyStrategy.hash
        (getOrCreateKey KeyStrategy.hash [] "Aa".data).2 "BB".data).1 ∧
    "Aa".data ≠ "BB".data ∧
    (getOrCreateKey KeyStrategy.hash [] "Aa".data).1 = "text_1mo".data := by
  decide

/-- `getOrCreateKey` either keeps the registry or appends one derived pair. -/
theorem getOrCreateKey_reg (strat : KeyStrategy) (R : Registry) (t : List Char) :
    (getOrCreateKey strat R t).2 = R ∨
    (getOrCreateKey strat R t).2 =
      R ++ [(trim t, suggestKeyName strat (trim t))] := by
  unfold getOrCreateKey
  cases h : regLookup R (trim t) <;> simp [h]

theorem registerAll_text_entries (ts : List (List Char)) (R : Registry)
    (hR : ∀ p ∈ R, p.2 = p.1) :
    ∀ p ∈ registerAll KeyStrategy.text R ts, p.2 = p.1 := by
  induction ts generalizing R with
  | nil => exact hR
  | cons t ts ih =>
    have hstep : registerAll KeyStrategy.text R (t :: ts)
        = registerAll KeyStrategy.text ((getOrCreateKey KeyStrategy.text R t).2) ts := rfl
    rw [hstep]
    apply ih
    intro p hp
    rcases getOrCreateKey_reg KeyStrategy.text R t with h | h
    · rw [h] at hp
      exact hR p hp
    · rw [h] at hp
      simp only [List.mem_append, List.mem_singleton] at hp
      rcases hp with hp | hp
      · exact hR p hp
      · subst hp
        show suggestKeyName KeyStrategy.text (trim t) = trim t
        show trim (trim t) = trim t
        exact trim_trim t

/-- C4 (amended): under the text strategy, where the key is the trimmed text
itself, the registry built by a run's `getOrCreateKey` calls is injective —
a key is never assigned to two different texts.  (Under the hash strategy
this fails, see the counterexample.) -/
theorem C4_text_strategy_injective (ts : List (List Char)) (t1 t2 k : List Char)
    (h1 : (t1, k) ∈ registerAll KeyStrategy.text [] ts)
    (h2 : (t2, k) ∈ registerAll KeyStrategy.text [] ts) : t1 = t2 := by
  have e1 := registerAll_text_entries ts [] (by intro p hp; cases hp) (t1, k) h1
  have e2 := registerAll_text_entries ts [] (by intro p hp; cases hp) (t2, k) h2
  simp only at e1 e2
  rw [← e1, ← e2]

/-- Witness for the amended C4 at a concrete input. -/
theorem C4_text_strategy_injective_witness :
    "Save Changes".data = "Save Changes".data :=
  C4_text_strategy_injective ["Save Changes".data] _ _ "Save Changes".data
    (by decide) (by decide)

/-! ### Record lemmas and the catalog merge (C5, C6) -/

theorem objLookup_objInsert_self (o : List (List Char × List Char))
    (k v : List Char) : objLookup (objInsert o k v) k = some v := by
  induction o with
  | nil => simp [objInsert, objLookup, List.find?_cons]
  | cons p r ih =>
    by_cases hp : (p.1 == k) = true
    · simp [objInsert, hp, objLookup, List.find?_cons]
    · simp only [Bool.not_eq_true] at hp
      simp only [objInsert, hp, Bool.false_eq_true, if_false]
      simp only [objLookup, List.find?_cons, hp]
      exact ih

theorem objLookup_objInsert_ne (o : List (List Char × List Char))
    (k v k' : List Char) (hne : k' ≠ k) :
    objLookup (objInsert o k v) k' = objLookup o k' := by
  have hkk : (k == k') = false := by
    simp only [beq_eq_false_iff_ne, ne_eq]
    exact fun hh => hne hh.symm
  induction o with
  | nil => simp [objInsert, objLookup, List.find?_cons, hkk]
  | cons p r ih =>
    by_cases hp : (p.1 == k) = true
    · have hk : p.1 = k := by simpa using hp
      have hp2 : (p.1 == k') = false := by rw [hk]; exact hkk
      simp only [objInsert, hp, if_pos]
      simp only [objLookup, List.find?_cons, hkk, hp2]
    · simp only [Bool.not_eq_true] at hp
      simp only [objInsert, hp, Bool.false_eq_true, if_false]
      simp only [objLookup, List.find?_cons] at *
      cases hq : (p.1 == k') <;> simp [hq, ih]

/-- Lookup after the target-catalog merge: a source key whose target binding
was falsy maps to the empty string, every other binding is untouched. -/
theorem mergeTarget_lookup (ks : List (List Char))
    (tgt : List (List Char × List Char)) (k : List Char) :
    objLookup (mergeTarget ks tgt) k =
      if k ∈ ks ∧ jsFalsy (objLookup tgt k) = true then some []
      else objLookup tgt k := by
  induction ks generalizing tgt with
  | nil => simp [mergeTarget]
  | cons k0 ks ih =>
    have hstep : mergeTarget (k0 :: ks) tgt =
        mergeTarget ks
          (if jsFalsy (objLookup tgt k0) = true then objInsert tgt k0 [] else tgt) := by
      simp [mergeTarget, List.foldl]
    rw [hstep]
    by_cases hf : jsFalsy (objLookup tgt k0) = true
    · simp only [hf, if_pos]
      rw [ih]
      by_cases hk : k = k0
      · subst hk
        have hself := objLookup_objInsert_self tgt k []
        simp [hself, hf, List.mem_cons]
      · have hne := objLookup_objInsert_ne tgt k0 [] k hk
        rw [hne]
        by_cases hmem : k ∈ ks <;> simp [hmem, hk, List.mem_cons]
    · simp only [hf, if_neg, Bool.not_eq_true]
      rw [ih]
      by_cases hk : k = k0
      · subst hk
        simp only [Bool.not_eq_true] at hf
        simp [hf, List.mem_cons]
      · by_cases hmem : k ∈ ks <;> simp [hmem, hk, List.mem_cons]

/-- C5: catalog merge safety.  (i) A key bound to a non-empty string in the
existing target keeps exactly that value; (ii) a source key absent from the
target is added with the empty string; (iii) with no new source keys the
whole key-to-value mapping of the target is unchanged. -/
theorem C5_catalog_merge_safety :
    (∀ ks tgt (k v : List Char), objLookup tgt k = some v → v ≠ [] →
      objLookup (mergeTarget ks tgt) k = some v) ∧
    (∀ ks tgt (k : List Char), k ∈ ks → objLookup tgt k = none →
      objLookup (mergeTarget ks tgt) k = some []) ∧
    (∀ ks tgt, (∀ k ∈ ks, (objLookup tgt k).isSome = true) →
      ∀ k, objLookup (mergeTarget ks tgt) k = objLookup tgt k) := by
  refine ⟨?_, ?_, ?_⟩
  · intro ks tgt k v hv hne
    rw [mergeTarget_lookup]
    have hno : ¬(k ∈ ks ∧ jsFalsy (objLookup tgt k) = true) := by
      rintro ⟨_, hf⟩
      rw [hv] at hf
      unfold jsFalsy at hf
      simp only [List.isEmpty_iff] at hf
      exact hne hf
    rw [if_neg hno, hv]
  · intro ks tgt k hk hnone
    rw [mergeTarget_lookup]
    have hf : jsFalsy (objLookup tgt k) = true := by rw [hnone]; rfl
    rw [if_pos ⟨hk, hf⟩]
  · intro ks tgt hall k
    rw [mergeTarget_lookup]
    split
    case isTrue h =>
      rcases h with ⟨hk, hf⟩
      have hsome := hall k hk
      cases hv : objLookup tgt k with
      | none => rw [hv] at hsome; simp at hsome
      | some v =>
        rw [hv] at hf
        unfold jsFalsy at hf
        simp only [List.isEmpty_iff] at hf
        rw [hf]
    case isFalse => rfl

/-- Witness for C5 at concrete catalogs: `{"Welcome": "Bienvenido"}` merged
with source keys `["Welcome", "Get Started"]`. -/
theorem C5_catalog_merge_safety_witness :
    objLookup
      (mergeTarget ["Welcome".data, "Get Started".data]
        [("Welcome".data, "Bienvenido".data)]) "Welcome".data
      = some "Bienvenido".data ∧
    objLookup
      (mergeTarget ["Welcome".data, "Get Started".data]
        [("Welcome".data, "Bienvenido".data)]) "Get Started".data
      = some [] :=
  ⟨C5_catalog_merge_safety.1 _ _ _ _ (by decide) (by decide),
   C5_catalog_merge_safety.2.1 _ _ _ (by decide) (by decide)⟩

/-- C6 counterexample: a pre-existing target key absent from the source
catalog survives regeneration, so the target key set is not a subset of the
source key set. -/
theorem C6_stale_key_counterexample :
    objLookup (mergeTarget ["A".data] [("Old".data, "Vieux".data)]) "Old".data
      = some "Vieux".data ∧
    ("Old".data ∈ ["A".data]) = False := by
  constructor
  · decide
  · simp

/-- C6 (amended): after the merge, the target's key set is exactly the union
of the pre-existing target keys and the source keys — pre-existing keys
absent from the source are preserved, not pruned. -/
theorem C6_target_keyset_union (ks : List (List Char))
    (tgt : List (List Char × List Char)) (k : List Char) :
    (objLookup (mergeTarget ks tgt) k).isSome = true ↔
      (objLookup tgt k).isSome = true ∨ k ∈ ks := by
  rw [mergeTarget_lookup]
  split
  case isTrue h => simp [h.1]
  case isFalse h =>
    constructor
    · intro hs
      exact Or.inl hs
    · intro hs
      rcases hs with hs | hs
      · exact hs
      · by_cases hf : jsFalsy (objLookup tgt k) = true
        · exact absurd ⟨hs, hf⟩ h
        · cases hv : objLookup tgt k with
          | none => rw [hv] at hf; simp [jsFalsy] at hf
          | some v => simp

/-! ### C9: component-descriptor inference -/

/-- C9 counterexample: a file with an exported function declaration and an
exported class declaration is classified as a function-style component — the
code inspects function declarations first and reaches classes last, the
opposite of the claimed priority. -/
theorem C9_priority_counterexample :
    (analyzeComponent
      ⟨"File".data, [⟨some "Foo".data, true⟩], [], [⟨some "Bar".data, true⟩]⟩).2
      = CompType.functionComp ∧
    (analyzeComponent
      ⟨"File".data, [⟨some "Foo".data, true⟩], [], [⟨some "Bar".data, true⟩]⟩).2
      ≠ CompType.classComp := by
  decide

theorem analyze_fold_none (L : List (List VarDecl))
    (acc : List Char × CompType)
    (hL : ∀ stmt ∈ L, stmt.find? (fun d => d.fnLike) = none) :
    L.foldl (fun acc stmt =>
      match stmt.find? (fun d => d.fnLike) with
      | some d => (d.vname, CompType.arrowComp)
      | none => acc) acc = acc := by
  induction L generalizing acc with
  | nil => rfl
  | cons stmt L ih =>
    have h0 := hL stmt (List.mem_cons_self _ _)
    simp only [List.foldl_cons, h0]
    exact ih acc (fun s hs => hL s (List.mem_cons_of_mem _ hs))

/-- C9 (amended): the priority actually implemented by `analyzeComponent` —
(1) any function declarations make the file function-style (even when an
exported class is present); (2) otherwise, with variable statements present,
the last statement containing an arrow/function-bound declaration names an
arrow-style component; (3) variable statements none of whose declarations
are arrow/function-bound leave the defaults, masking any classes; (4) only a
file with no function declarations and no variable statements is classified
by its first exported class; (5) otherwise the defaults (file name,
function style) stand. -/
theorem C9_analyze_priority :
    (∀ sf : SFModel, sf.functions ≠ [] →
      (analyzeComponent sf).2 = CompType.functionComp) ∧
    (∀ sf : SFModel, sf.functions = [] → sf.varStmts ≠ [] →
      ∀ pre stmt post d, sf.varStmts = pre ++ stmt :: post →
        stmt.find? (fun d0 => d0.fnLike) = some d →
        (∀ s2 ∈ post, s2.find? (fun d0 => d0.fnLike) = none) →
        analyzeComponent sf = (d.vname, CompType.arrowComp)) ∧
    (∀ sf : SFModel, sf.functions = [] → sf.varStmts ≠ [] →
      (∀ stmt ∈ sf.varStmts, stmt.find? (fun d0 => d0.fnLike) = none) →
      analyzeComponent sf = (sf.fileName, CompType.functionComp)) ∧
    (∀ sf : SFModel, sf.functions = [] → sf.varStmts = [] → ∀ c,
      sf.classes.find? (fun c0 => c0.exported) = some c →
      analyzeComponent sf = (c.cname.getD sf.fileName, CompType.classComp)) ∧
    (∀ sf : SFModel, sf.functions = [] → sf.varStmts = [] →
      sf.classes.find? (fun c0 => c0.exported) = none →
      analyzeComponent sf = (sf.fileName, CompType.functionComp)) := by
  refine ⟨?_, ?_, ?_, ?_, ?_⟩
  · intro sf hfn
    unfold analyzeComponent
    have hne : (!sf.functions.isEmpty) = true := by
      cases hc : sf.functions with
      | nil => exact absurd hc hfn
      | cons a l => simp [List.isEmpty]
    rw [if_pos hne]
    cases sf.functions.find? (fun f => f.exported) <;> rfl
  · intro sf hfn hvs pre stmt post d hsplit hfind hpost
    unfold analyzeComponent
    have hfe : (!sf.functions.isEmpty) = false := by rw [hfn]; rfl
    have hve : (!sf.varStmts.isEmpty) = true := by
      cases hc : sf.varStmts with
      | nil => exact absurd hc hvs
      | cons a l => simp [List.isEmpty]
    rw [if_neg (by rw [hfe]; exact Bool.false_ne_true), if_pos hve, hsplit]
    rw [List.foldl_append, List.foldl_cons, hfind]
    exact analyze_fold_none post _ hpost
  · intro sf hfn hvs hnone
    unfold analyzeComponent
    have hfe : (!sf.functions.isEmpty) = false := by rw [hfn]; rfl
    have hve : (!sf.varStmts.isEmpty) = true := by
      cases hc : sf.varStmts with
      | nil => exact absurd hc hvs
      | cons a l => simp [List.isEmpty]
    rw [if_neg (by rw [hfe]; exact Bool.false_ne_true), if_pos hve]
    exact analyze_fold_none sf.varStmts _ hnone
  · intro sf hfn hvs c hfind
    unfold analyzeComponent
    have hfe : (!sf.functions.isEmpty) = false := by rw [hfn]; rfl
    have hvee : (!sf.varStmts.isEmpty) = false := by rw [hvs]; rfl
    have hce : (!sf.classes.isEmpty) = true := by
      cases hc : sf.classes with
      | nil => rw [hc] at hfind; simp [List.find?] at hfind
      | cons a l => simp [List.isEmpty]
    rw [if_neg (by rw [hfe]; exact Bool.false_ne_true),
      if_neg (by rw [hvee]; exact Bool.false_ne_true), if_pos hce, hfind]
  · intro sf hfn hvs hfind
    unfold analyzeComponent
    have hfe : (!sf.functions.isEmpty) = false := by rw [hfn]; rfl
    have hvee : (!sf.varStmts.isEmpty) = false := by rw [hvs]; rfl
    rw [if_neg (by rw [hfe]; exact Bool.false_ne_true),
      if_neg (by rw [hvee]; exact Bool.false_ne_true)]
    cases hce : (!sf.classes.isEmpty)
    · simp
    · simp [hfind]

/-- Witness for the amended C9. -/
theorem C9_analyze_priority_witness :
    (analyzeComponent ⟨"File".data, [⟨some "Foo".data, true⟩], [],
      [⟨some "Bar".data, true⟩]⟩).2 = CompType.functionComp ∧
    analyzeComponent ⟨"App".data, [], [[⟨"x".data, false⟩], [⟨"C".data, true⟩]],
      []⟩ = ("C".data, CompType.arrowComp) :=
  ⟨(C9_analyze_priority.1 _ (by decide)),
   (C9_analyze_priority.2.1 _ (by decide) (by decide)
     [[⟨"x".data, false⟩]] [⟨"C".data, true⟩] [] ⟨"C".data, true⟩
     (by decide) (by decide) (by decide))⟩

/-! ### C3: key stability -/

theorem objInsert_mem (o : List (List Char × List Char)) (k v : List Char)
    (p : List Char × List Char) (hp : p ∈ objInsert o k v) :
    p ∈ o ∨ p = (k, v) := by
  induction o with
  | nil =>
    simp only [objInsert, List.mem_singleton] at hp
    exact Or.inr hp
  | cons q r ih =>
    by_cases hq : (q.1 == k) = true
    · simp only [objInsert, hq, if_pos, List.mem_cons] at hp
      rcases hp with hp | hp
      · exact Or.inr hp
      · exact Or.inl (List.mem_cons_of_mem _ hp)
    · simp only [Bool.not_eq_true] at hq
      simp only [objInsert, hq, Bool.false_eq_true, if_false, List.mem_cons] at hp
      rcases hp with hp | hp
      · exact Or.inl (by rw [hp]; exact List.mem_cons_self _ _)
      · rcases ih hp with h | h
        · exact Or.inl (List.mem_cons_of_mem _ h)
        · exact Or.inr h

theorem catalogOf_aux (R : Registry) (o : List (List Char × List Char))
    (p : List Char × List Char)
    (hp : p ∈ R.foldl (fun o q => objInsert o q.2 q.1) o) :
    p ∈ o ∨ ∃ q ∈ R, p = (q.2, q.1) := by
  induction R generalizing o with
  | nil => exact Or.inl hp
  | cons q R ih =>
    simp only [List.foldl_cons] at hp
    rcases ih _ hp with h | ⟨q2, hq2, hpq⟩
    · rcases objInsert_mem _ _ _ _ h with h2 | h2
      · exact Or.inl h2
      · exact Or.inr ⟨q, List.mem_cons_self _ _, h2⟩
    · exact Or.inr ⟨q2, List.mem_cons_of_mem _ hq2, hpq⟩

/-- Every pair of the source catalog is an inverted registry entry. -/
theorem catalogOf_mem (R : Registry) (p : List Char × List Char)
    (hp : p ∈ catalogOf R) : (p.2, p.1) ∈ R := by
  rcases catalogOf_aux R [] p hp with h | ⟨q, hq, hpq⟩
  · cases h
  · rw [hpq]
    exact hq

theorem seedFrom_aux (V : List Char → Bool)
    (cat : List (List Char × List Char)) (M : Registry)
    (p : List Char × List Char)
    (hp : p ∈ cat.foldl (fun M q => if V q.2 then objInsert M q.2 q.1 else M) M) :
    p ∈ M ∨ ∃ q ∈ cat, p = (q.2, q.1) ∧ V q.2 = true := by
  induction cat generalizing M with
  | nil => exact Or.inl hp
  | cons q cat ih =>
    simp only [List.foldl_cons] at hp
    rcases ih _ hp with h | ⟨q2, hq2, hpq, hv⟩
    · by_cases hv : V q.2 = true
      · rw [if_pos hv] at h
        rcases objInsert_mem _ _ _ _ h with h2 | h2
        · exact Or.inl h2
        · exact Or.inr ⟨q, List.mem_cons_self _ _, h2, hv⟩
      · rw [if_neg hv] at h
        exact Or.inl h
    · exact Or.inr ⟨q2, List.mem_cons_of_mem _ hq2, hpq, hv⟩

/-- Every registry entry produced by pre-seeding is an inverted catalog pair
whose text passed validation. -/
theorem seedFrom_mem (V : List Char → Bool)
    (cat : List (List Char × List Char)) (p : List Char × List Char)
    (hp : p ∈ seedFrom V cat) :
    (∃ q ∈ cat, p = (q.2, q.1)) ∧ V p.1 = true := by
  rcases seedFrom_aux V cat [] p hp with h | ⟨q, hq, hpq, hv⟩
  · cases h
  · subst hpq
    exact ⟨⟨q, hq, rfl⟩, hv⟩

theorem nodup_fst_unique (R : Registry) (hnd : (R.map Prod.fst).Nodup)
    (t k k' : List Char) (h1 : (t, k) ∈ R) (h2 : (t, k') ∈ R) : k = k' := by
  induction R with
  | nil => cases h1
  | cons p R ih =>
    simp only [List.map_cons, List.nodup_cons] at hnd
    simp only [List.mem_cons] at h1 h2
    rcases h1 with h1 | h1 <;> rcases h2 with h2 | h2
    · rw [← h1] at h2
      exact (Prod.mk.injEq _ _ _ _ ▸ h2).2.symm
    · exfalso
      apply hnd.1
      have hfst : p.1 = t := by rw [← h1]
      rw [hfst]
      exact List.mem_map.mpr ⟨(t, k'), h2, rfl⟩
    · exfalso
      apply hnd.1
      have hfst : p.1 = t := by rw [← h2]
      rw [hfst]
      exact List.mem_map.mpr ⟨(t, k), h1, rfl⟩
    · exact ih hnd.2 h1 h2

theorem regLookup_some_mem (R : Registry) (t k : List Char)
    (h : regLookup R t = some k) : (t, k) ∈ R := by
  unfold regLookup at h
  cases hf : R.find? (fun p => p.1 == t) with
  | none => rw [hf] at h; cases h
  | some p0 =>
    rw [hf] at h
    simp only [Option.map_some'] at h
    have hm := List.mem_of_find?_eq_some hf
    have ht := List.find?_some hf
    simp only [beq_iff_eq] at ht
    have : p0 = (t, k) := by
      cases p0
      simp only at ht h
      injection h with h2
      rw [ht, h2]
    rw [← this]
    exact hm

theorem regLookup_append_self (R : Registry) (c k : List Char)
    (h : regLookup R c = none) : regLookup (R ++ [(c, k)]) c = some k := by
  unfold regLookup at h ⊢
  have hf : R.find? (fun p => p.1 == c) = none := by
    cases hfx : R.find? (fun p => p.1 == c) with
    | none => rfl
    | some p0 => rw [hfx] at h; cases h
  rw [List.find?_append, hf]
  show (Option.or none (List.find? (fun p => p.1 == c) [(c, k)])).map
    (fun p => p.2) = some k
  rw [List.find?_cons]
  simp

theorem regLookup_none_not_mem (R : Registry) (t : List Char)
    (h : regLookup R t = none) : ∀ k, (t, k) ∉ R := by
  intro k hk
  unfold regLookup at h
  cases hf : R.find? (fun p => p.1 == t) with
  | some p0 => rw [hf] at h; cases h
  | none =>
    rw [List.find?_eq_none] at hf
    exact hf (t, k) hk (by simp)

/-- The run invariant of C3: first components are unique, every entry is
trimmed, and every key is the strategy's derivation of its text. -/
def RegConsistent (strat : KeyStrategy) (R : Registry) : Prop :=
  (R.map Prod.fst).Nodup ∧
  ∀ p ∈ R, p.1 = trim p.1 ∧ p.2 = suggestKeyName strat p.1

theorem getOrCreateKey_consistent (strat : KeyStrategy) (R : Registry)
    (t : List Char) (hR : RegConsistent strat R) :
    RegConsistent strat (getOrCreateKey strat R t).2 := by
  cases hL : regLookup R (trim t) with
  | some k => simpa only [getOrCreateKey, hL] using hR
  | none =>
    simp only [getOrCreateKey, hL]
    constructor
    · rw [List.map_append]
      rw [List.nodup_append]
      refine ⟨hR.1, List.nodup_singleton _, ?_⟩
      intro a ha hb
      simp only [List.map_cons, List.map_nil, List.mem_singleton] at hb
      subst hb
      rcases List.mem_map.mp ha with ⟨p, hp, hfst⟩
      cases p with
      | mk a b =>
        simp only at hfst
        rw [hfst] at hp
        exact regLookup_none_not_mem R (trim t) hL b hp
    · intro p hp
      rcases List.mem_append.mp hp with h | h
      · exact hR.2 p h
      · simp only [List.mem_singleton] at h
        subst h
        exact ⟨(trim_trim t).symm, by
          show suggestKeyName strat (trim t) = suggestKeyName strat (trim t)
          rfl⟩

/-- Registries built by a run from the empty registry are consistent. -/
theorem registerAll_consistent (strat : KeyStrategy) (ts : List (List Char)) :
    RegConsistent strat (registerAll strat [] ts) := by
  have main : ∀ (ts : List (List Char)) (R : Registry), RegConsistent strat R →
      RegConsistent strat (registerAll strat R ts) := by
    intro ts
    induction ts with
    | nil => intro R hR; exact hR
    | cons t ts ih =>
      intro R hR
      exact ih _ (getOrCreateKey_consistent strat R t hR)
  exact main ts [] ⟨List.nodup_nil, by intro p hp; cases hp⟩

/-- C3: key stability.  (a) Within one run, resolving the same text twice
returns the same key and the same registry.  (b) When a second run is
pre-seeded from the first run's source catalog (only pairs whose text passes
validation are inserted, in reverse), every validated text registered in run
one resolves to its run-one key.  (c) The hypotheses of (b) hold for every
registry a run builds from scratch. -/
theorem C3_key_stability :
    (∀ (strat : KeyStrategy) (R : Registry) (t : List Char),
      (getOrCreateKey strat ((getOrCreateKey strat R t).2) t).1
          = (getOrCreateKey strat R t).1 ∧
      (getOrCreateKey strat ((getOrCreateKey strat R t).2) t).2
          = (getOrCreateKey strat R t).2) ∧
    (∀ (strat : KeyStrategy) (V : List Char → Bool) (R1 : Registry)
      (t k : List Char), RegConsistent strat R1 →
      (t, k) ∈ R1 → V t = true →
      (getOrCreateKey strat (seedFrom V (catalogOf R1)) t).1 = k) ∧
    (∀ (strat : KeyStrategy) (ts : List (List Char)),
      RegConsistent strat (registerAll strat [] ts)) := by
  refine ⟨?_, ?_, registerAll_consistent⟩
  · intro strat R t
    cases hL : regLookup R (trim t) with
    | some k => simp [getOrCreateKey, hL]
    | none =>
      have h2 := regLookup_append_self R (trim t)
        (suggestKeyName strat (trim t)) hL
      simp [getOrCreateKey, hL, h2]
  · intro strat V R1 t k hcons hmem hv
    have ht : t = trim t := (hcons.2 _ hmem).1
    cases hL : regLookup (seedFrom V (catalogOf R1)) (trim t) with
    | some k2 =>
      simp only [getOrCreateKey, hL]
      have hmem2 : (trim t, k2) ∈ seedFrom V (catalogOf R1) :=
        regLookup_some_mem _ _ _ hL
      obtain ⟨⟨q, hq, hpq⟩, _⟩ := seedFrom_mem V (catalogOf R1) _ hmem2
      have hR : (q.2, q.1) ∈ R1 := catalogOf_mem R1 q hq
      have hq1 : k2 = q.1 := congrArg Prod.snd hpq
      have hq2 : trim t = q.2 := congrArg Prod.fst hpq
      rw [← hq1, ← hq2] at hR
      rw [← ht] at hR
      exact (nodup_fst_unique R1 hcons.1 t k k2 hmem hR).symm
    | none =>
      simp only [getOrCreateKey, hL]
      rw [← ht]
      exact ((hcons.2 _ hmem).2).symm

/-- Witness for C3 at a concrete registry and text. -/
theorem C3_key_stability_witness :
    (getOrCreateKey KeyStrategy.text
      (seedFrom (fun _ => true)
        (catalogOf [("Save Changes".data, "Save Changes".data)]))
      "Save Changes".data).1 = "Save Changes".data :=
  C3_key_stability.2.1 KeyStrategy.text (fun _ => true)
    [("Save Changes".data, "Save Changes".data)] "Save Changes".data
    "Save Changes".data (by constructor <;> decide) (by decide) rfl

/-! ### Scanner round trips and no-match passes -/

theorem drop_length_takeWhile (p : Char → Bool) (l : List Char) :
    l.drop (l.takeWhile p).length = l.dropWhile p := by
  induction l with
  | nil => rfl
  | cons c r ih =>
    by_cases hp : p c = true
    · simp only [List.takeWhile_cons, hp, if_pos, List.length_cons,
        List.drop_succ_cons, List.dropWhile_cons]
      exact ih
    · simp only [Bool.not_eq_true] at hp
      simp only [List.takeWhile_cons, hp, Bool.false_eq_true, if_false,
        List.length_nil, List.drop_zero, List.dropWhile_cons, List.drop]

theorem takeWhile_drop_eq (p : Char → Bool) (l : List Char) :
    l.takeWhile p ++ l.drop (l.takeWhile p).length = l := by
  rw [drop_length_takeWhile]
  exact List.takeWhile_append_dropWhile p l

/-- Fuel does not matter once it covers the input length. -/
theorem scanJsxGo_fuel (f1 f2 : Nat) : ∀ (s : List Char),
    s.length ≤ f1 → s.length ≤ f2 → scanJsxGo f1 s = scanJsxGo f2 s := by
  induction f1 generalizing f2 with
  | zero =>
    intro s h1 _
    have : s = [] := List.length_eq_zero.mp (Nat.le_zero.mp h1)
    subst this
    cases f2 <;> rfl
  | succ f1 ih =>
    intro s h1 h2
    cases s with
    | nil => cases f2 <;> rfl
    | cons c rest =>
      cases f2 with
      | zero => simp at h2
      | succ f2 =>
        simp only [List.length_cons, Nat.succ_le_succ_iff] at h1 h2
        cases hd : rest.drop (rest.takeWhile (fun d => !jsxStop d)).length with
        | nil =>
          simp only [scanJsxGo, hd]
          rw [ih f2 rest h1 h2]
        | cons d after =>
          have hlen : after.length ≤ rest.length := by
            have := congrArg List.length hd
            simp only [List.length_drop, List.length_cons] at this
            omega
          simp only [scanJsxGo, hd]
          rw [ih f2 rest h1 h2,
            ih f2 after (Nat.le_trans hlen h1) (Nat.le_trans hlen h2)]

theorem scanJsx_cons (c : Char) (rest : List Char) :
    scanJsx (c :: rest) =
      if c == '>' then
        match rest.drop (rest.takeWhile (fun d => !jsxStop d)).length with
        | d :: after =>
          if d == '<' && !(rest.takeWhile (fun d => !jsxStop d)).isEmpty then
            JSeg.jmatch (rest.takeWhile (fun d => !jsxStop d)) :: scanJsx after
          else JSeg.plain '>' :: scanJsx rest
        | [] => JSeg.plain '>' :: scanJsx rest
      else JSeg.plain c :: scanJsx rest := by
  show scanJsxGo (rest.length + 1) (c :: rest) = _
  cases hd : rest.drop (rest.takeWhile (fun d => !jsxStop d)).length with
  | nil =>
    simp only [scanJsxGo, hd]
    rfl
  | cons d after =>
    have hlen : after.length ≤ rest.length := by
      have := congrArg List.length hd
      simp only [List.length_drop, List.length_cons] at this
      omega
    simp only [scanJsxGo, hd]
    rw [scanJsxGo_fuel rest.length after.length after hlen (Nat.le_refl _)]
    rfl

/-- The JSX scanner's segments spell the input back out. -/
theorem rawOfJ_scanJsx (s : List Char) : rawOfJ (scanJsx s) = s := by
  suffices h : ∀ n (s : List Char), s.length = n → rawOfJ (scanJsx s) = s from
    h s.length s rfl
  intro n
  induction n using Nat.strong_induction_on with
  | _ n ih =>
    intro s hn
    cases s with
    | nil => rfl
    | cons c rest =>
      cases hd : rest.drop (rest.takeWhile (fun d => !jsxStop d)).length with
      | nil =>
        rw [scanJsx_cons]
        simp only [hd]
        by_cases hc : (c == '>') = true
        · have hc2 : c = '>' := by simpa using hc
          simp only [hc, if_pos, rawOfJ, jsegRaw, List.singleton_append]
          rw [ih rest.length (by simp only [← hn, List.length_cons]; omega) rest rfl, hc2]
        · simp only [Bool.not_eq_true] at hc
          simp only [hc, Bool.false_eq_true, if_false, rawOfJ, jsegRaw,
            List.singleton_append]
          rw [ih rest.length (by simp only [← hn, List.length_cons]; omega) rest rfl]
      | cons d after =>
        have hlen : after.length < rest.length := by
          have := congrArg List.length hd
          simp only [List.length_drop, List.length_cons] at this
          omega
        rw [scanJsx_cons]
        simp only [hd]
        by_cases hc : (c == '>') = true
        · have hc2 : c = '>' := by simpa using hc
          by_cases hdx : (d == '<' && !(rest.takeWhile (fun d => !jsxStop d)).isEmpty) = true
          · have hd2 : d = '<' := by
              have h3 := hdx
              rw [Bool.and_eq_true] at h3
              simpa using h3.1
            simp only [hc, if_pos, hdx, rawOfJ, jsegRaw]
            rw [ih after.length (by simp only [← hn, List.length_cons]; omega) after rfl]
            rw [hc2]
            have hsplit := takeWhile_drop_eq (fun d => !jsxStop d) rest
            rw [hd, hd2] at hsplit
            rw [List.cons_append, List.append_assoc]
            simp only [List.singleton_append]
            rw [hsplit]
          · simp only [Bool.not_eq_true] at hdx
            simp only [hc, if_pos, hdx, Bool.false_eq_true, if_false, rawOfJ,
              jsegRaw, List.singleton_append]
            rw [ih rest.length (by simp only [← hn, List.length_cons]; omega) rest rfl, hc2]
        · simp only [Bool.not_eq_true] at hc
          simp only [hc, Bool.false_eq_true, if_false, rawOfJ, jsegRaw,
            List.singleton_append]
          rw [ih rest.length (by simp only [← hn, List.length_cons]; omega) rest rfl]

/-- A pass whose matches are all guarded or invalid changes nothing. -/
theorem runJsxSegs_inert (V : List Char → Bool) (strat : KeyStrategy)
    (segs : List JSeg) (R : Registry)
    (h : ∀ x, JSeg.jmatch x ∈ segs → jsxGuard x = true ∨ V (trim x) = false) :
    runJsxSegs V strat segs R = ⟨rawOfJ segs, R, 0⟩ := by
  induction segs with
  | nil => rfl
  | cons s segs ih =>
    have hrest : ∀ x, JSeg.jmatch x ∈ segs → jsxGuard x = true ∨ V (trim x) = false :=
      fun x hx => h x (List.mem_cons_of_mem _ hx)
    cases s with
    | plain c =>
      simp only [runJsxSegs, ih hrest]
      rfl
    | jmatch x =>
      rcases h x (List.mem_cons_self _ _) with hg | hv
      · simp only [runJsxSegs, hg, if_pos, ih hrest]
        rfl
      · by_cases hg : jsxGuard x = true
        · simp only [runJsxSegs, hg, if_pos, ih hrest]
          rfl
        · simp only [Bool.not_eq_true] at hg
          simp only [runJsxSegs, hg, Bool.false_eq_true, if_false, hv, ih hrest]
          rfl

/-- Empty JSX extraction means every match is invalid, and the registry is
untouched. -/
theorem extractJsxTexts_nil (V : List Char → Bool) (strat : KeyStrategy)
    (segs : List JSeg) (R : Registry)
    (h : (extractJsxTexts V strat segs R).1 = []) :
    (∀ x, JSeg.jmatch x ∈ segs → V (trim x) = false) ∧
    (extractJsxTexts V strat segs R).2 = R := by
  induction segs generalizing R with
  | nil => exact ⟨fun x hx => absurd hx (List.not_mem_nil _), rfl⟩
  | cons s segs ih =>
    cases s with
    | plain c =>
      simp only [extractJsxTexts] at h ⊢
      obtain ⟨h1, h2⟩ := ih R h
      refine ⟨fun x hx => ?_, h2⟩
      rcases List.mem_cons.mp hx with hx | hx
      · cases hx
      · exact h1 x hx
    | jmatch x =>
      by_cases hv : V (trim x) = true
      · exfalso
        simp only [extractJsxTexts, hv, if_pos] at h
        cases h
      · simp only [Bool.not_eq_true] at hv
        simp only [extractJsxTexts, hv, Bool.false_eq_true, if_false] at h ⊢
        obtain ⟨h1, h2⟩ := ih R h
        refine ⟨fun y hy => ?_, h2⟩
        rcases List.mem_cons.mp hy with hy | hy
        · cases hy
          exact hv
        · exact h1 y hy

/-! ## Equation lemmas for the JSX scanner and the JSX pass -/

theorem scanJsx_nil : scanJsx [] = [] := rfl

theorem scanJsx_cons_nongt (c : Char) (rest : List Char)
    (hc : (c == '>') = false) :
    scanJsx (c :: rest) = JSeg.plain c :: scanJsx rest := by
  rw [scanJsx_cons]
  simp [hc]

theorem scanJsx_gt_nil (rest : List Char)
    (hd : rest.drop ((rest.takeWhile (fun d => !jsxStop d)).length) = []) :
    scanJsx ('>' :: rest) = JSeg.plain '>' :: scanJsx rest := by
  rw [scanJsx_cons, hd]
  simp

theorem scanJsx_gt_nomatch (rest : List Char) (d : Char) (after : List Char)
    (hd : rest.drop ((rest.takeWhile (fun d => !jsxStop d)).length) = d :: after)
    (hcond : (d == '<' && !(rest.takeWhile (fun d => !jsxStop d)).isEmpty) = false) :
    scanJsx ('>' :: rest) = JSeg.plain '>' :: scanJsx rest := by
  rw [scanJsx_cons, hd]
  simp [hcond]

theorem scanJsx_gt_match (rest : List Char) (d : Char) (after : List Char)
    (hd : rest.drop ((rest.takeWhile (fun d => !jsxStop d)).length) = d :: after)
    (hcond : (d == '<' && !(rest.takeWhile (fun d => !jsxStop d)).isEmpty) = true) :
    scanJsx ('>' :: rest) =
      JSeg.jmatch (rest.takeWhile (fun d => !jsxStop d)) :: scanJsx after := by
  rw [scanJsx_cons, hd]
  simp [hcond]

theorem runJsxSegs_plain (V : List Char → Bool) (strat : KeyStrategy) (c : Char)
    (segs : List JSeg) (R : Registry) :
    runJsxSegs V strat (JSeg.plain c :: segs) R =
      ⟨c :: (runJsxSegs V strat segs R).content, (runJsxSegs V strat segs R).reg,
       (runJsxSegs V strat segs R).count⟩ := rfl

theorem runJsxSegs_guard (V : List Char → Bool) (strat : KeyStrategy)
    (x : List Char) (segs : List JSeg) (R : Registry) (hg : jsxGuard x = true) :
    runJsxSegs V strat (JSeg.jmatch x :: segs) R =
      ⟨jsegRaw (JSeg.jmatch x) ++ (runJsxSegs V strat segs R).content,
       (runJsxSegs V strat segs R).reg, (runJsxSegs V strat segs R).count⟩ := by
  simp only [runJsxSegs, hg, if_pos]

theorem runJsxSegs_wrap (V : List Char → Bool) (strat : KeyStrategy)
    (x : List Char) (segs : List JSeg) (R : Registry) (hg : jsxGuard x = false)
    (hv : V (trim x) = true) :
    runJsxSegs V strat (JSeg.jmatch x :: segs) R =
      ⟨jsxWrap (getOrCreateKey strat R (trim x)).1 ++
          (runJsxSegs V strat segs (getOrCreateKey strat R (trim x)).2).content,
       (runJsxSegs V strat segs (getOrCreateKey strat R (trim x)).2).reg,
       (runJsxSegs V strat segs (getOrCreateKey strat R (trim x)).2).count + 1⟩ := by
  simp only [runJsxSegs, hg, Bool.false_eq_true, if_false, hv, if_pos]

theorem runJsxSegs_skip (V : List Char → Bool) (strat : KeyStrategy)
    (x : List Char) (segs : List JSeg) (R : Registry) (hg : jsxGuard x = false)
    (hv : V (trim x) = false) :
    runJsxSegs V strat (JSeg.jmatch x :: segs) R =
      ⟨jsegRaw (JSeg.jmatch x) ++ (runJsxSegs V strat segs R).content,
       (runJsxSegs V strat segs R).reg, (runJsxSegs V strat segs R).count⟩ := by
  simp only [runJsxSegs, hg, Bool.false_eq_true, if_false, hv]

/-! ## Cleanliness lemmas: the text strategy only hands out keys free of the
capture-class stop characters when the registry was seeded with such keys -/

theorem mem_dropWhile_sub {p : Char → Bool} {l : List Char} {c : Char}
    (h : c ∈ l.dropWhile p) : c ∈ l := by
  induction l with
  | nil => simp at h
  | cons a l ih =>
    rw [List.dropWhile_cons] at h
    by_cases hp : p a = true
    · rw [if_pos hp] at h
      exact List.mem_cons_of_mem _ (ih h)
    · rw [if_neg hp] at h
      exact h

theorem mem_trim_sub {l : List Char} {c : Char} (h : c ∈ trim l) : c ∈ l := by
  unfold trim dropEnd at h
  rw [List.mem_reverse] at h
  have h2 := mem_dropWhile_sub h
  rw [List.mem_reverse] at h2
  exact mem_dropWhile_sub h2

theorem jsxClean_trim {l : List Char} (h : jsxClean l = true) :
    jsxClean (trim l) = true := by
  simp only [jsxClean, List.all_eq_true] at h ⊢
  exact fun c hc => h c (mem_trim_sub hc)

theorem clean_not_gt {k : List Char} (hk : jsxClean k = true) {c : Char}
    (hc : c ∈ k) : (c == '>') = false := by
  simp only [jsxClean, List.all_eq_true] at hk
  have h2 : jsxStop c = false := by simpa using hk c hc
  simp only [jsxStop, Bool.or_eq_false_iff] at h2
  exact h2.1.2

theorem regLookup_clean {R : Registry} (hR : regClean R = true) {t k : List Char}
    (h : regLookup R t = some k) : jsxClean k = true := by
  unfold regLookup at h
  obtain ⟨p, hp, hk⟩ := Option.map_eq_some'.mp h
  have hmem := List.mem_of_find?_eq_some hp
  simp only [regClean, List.all_eq_true] at hR
  exact hk ▸ hR p hmem

theorem getOrCreateKey_text_clean {R : Registry} {t : List Char}
    (hR : regClean R = true) (ht : jsxClean (trim t) = true) :
    jsxClean (getOrCreateKey KeyStrategy.text R t).1 = true ∧
    regClean (getOrCreateKey KeyStrategy.text R t).2 = true := by
  cases hL : regLookup R (trim t) with
  | some k =>
    simp only [getOrCreateKey, hL]
    exact ⟨regLookup_clean hR hL, hR⟩
  | none =>
    simp only [getOrCreateKey, hL, suggestKeyName]
    refine ⟨by rw [trim_trim]; exact ht, ?_⟩
    simp only [regClean, List.all_eq_true] at hR ⊢
    intro p hp
    rcases List.mem_append.mp hp with hp | hp
    · exact hR p hp
    · rw [List.mem_singleton] at hp
      subst hp
      rw [trim_trim]
      exact ht

theorem mem_escQ {k : List Char} {c : Char} (h : c ∈ escQ k) :
    c = bsl ∨ c = sq ∨ c ∈ k := by
  induction k with
  | nil => simp [escQ] at h
  | cons a k ih =>
    simp only [escQ, List.foldr_cons] at h
    by_cases ha : (a == sq) = true
    · rw [if_pos ha] at h
      rcases List.mem_cons.mp h with h | h
      · exact Or.inl h
      rcases List.mem_cons.mp h with h | h
      · exact Or.inr (Or.inl h)
      rcases ih h with h | h | h
      · exact Or.inl h
      · exact Or.inr (Or.inl h)
      · exact Or.inr (Or.inr (List.mem_cons_of_mem _ h))
    · rw [if_neg ha] at h
      rcases List.mem_cons.mp h with h | h
      · subst h
        exact Or.inr (Or.inr (List.mem_cons_self _ _))
      rcases ih h with h | h | h
      · exact Or.inl h
      · exact Or.inr (Or.inl h)
      · exact Or.inr (Or.inr (List.mem_cons_of_mem _ h))

/-- Every capture the JSX scanner produces is non-empty and free of the stop
characters. -/
theorem scanJsx_wf : ∀ (s x : List Char), JSeg.jmatch x ∈ scanJsx s →
    x ≠ [] ∧ jsxClean x = true := by
  suffices h : ∀ n (s : List Char), s.length = n → ∀ x,
      JSeg.jmatch x ∈ scanJsx s → x ≠ [] ∧ jsxClean x = true from
    fun s => h s.length s rfl
  intro n
  induction n using Nat.strong_induction_on with
  | _ n ih =>
    intro s hn x hx
    cases s with
    | nil => simp [scanJsx, scanJsxGo] at hx
    | cons c rest =>
      by_cases hc : (c == '>') = true
      · have hc2 : c = '>' := by simpa using hc
        subst hc2
        cases hd : rest.drop ((rest.takeWhile (fun d => !jsxStop d)).length) with
        | nil =>
          rw [scanJsx_gt_nil rest hd] at hx
          rcases List.mem_cons.mp hx with h | h
          · simp at h
          · exact ih rest.length (by simp only [← hn, List.length_cons]; omega)
              rest rfl x h
        | cons d after =>
          by_cases hcond :
              (d == '<' && !(rest.takeWhile (fun d => !jsxStop d)).isEmpty) = true
          · rw [scanJsx_gt_match rest d after hd hcond] at hx
            rcases List.mem_cons.mp hx with h | h
            · injection h with h
              subst h
              rw [Bool.and_eq_true] at hcond
              constructor
              · have h3 : (rest.takeWhile (fun d => !jsxStop d)).isEmpty = false := by
                  simpa using hcond.2
                exact List.isEmpty_eq_false.mp h3
              · simp only [jsxClean, List.all_eq_true]
                intro e he
                have h4 := List.mem_takeWhile_imp he
                exact h4
            · have hlen : after.length < rest.length := by
                have := congrArg List.length hd
                simp only [List.length_drop, List.length_cons] at this
                omega
              exact ih after.length (by simp only [← hn, List.length_cons]; omega)
                after rfl x h
          · simp only [Bool.not_eq_true] at hcond
            rw [scanJsx_gt_nomatch rest d after hd hcond] at hx
            rcases List.mem_cons.mp hx with h | h
            · simp at h
            · exact ih rest.length (by simp only [← hn, List.length_cons]; omega)
                rest rfl x h
      · simp only [Bool.not_eq_true] at hc
        rw [scanJsx_cons_nongt c rest hc] at hx
        rcases List.mem_cons.mp hx with h | h
        · simp at h
        · exact ih rest.length (by simp only [← hn, List.length_cons]; omega)
            rest rfl x h

/-! ## Composition lemmas: how the scanner reads a transformed prefix -/

theorem takeWhile_append_stop {p : Char → Bool} :
    ∀ (x : List Char) (b : Char) (t : List Char),
      (∀ c ∈ x, p c = true) → p b = false →
      (x ++ b :: t).takeWhile p = x := by
  intro x
  induction x with
  | nil =>
    intro b t _ hb
    simp [List.takeWhile_cons, hb]
  | cons a x ih =>
    intro b t hx hb
    have ha := hx a (List.mem_cons_self _ _)
    rw [List.cons_append, List.takeWhile_cons, if_pos ha,
      ih b t (fun c hc => hx c (List.mem_cons_of_mem _ hc)) hb]

/-- Scanning a raw match's source text reproduces the match. -/
theorem scanJsx_rawmatch (x t : List Char) (hne : x ≠ [])
    (hcl : jsxClean x = true) :
    scanJsx ('>' :: (x ++ '<' :: t)) = JSeg.jmatch x :: scanJsx t := by
  have hcl2 := List.all_eq_true.mp hcl
  have htw : (x ++ '<' :: t).takeWhile (fun d => !jsxStop d) = x :=
    takeWhile_append_stop x '<' t hcl2 (by decide)
  have hdr : (x ++ '<' :: t).drop x.length = '<' :: t := List.drop_left x ('<' :: t)
  have hie : x.isEmpty = false := List.isEmpty_eq_false.mpr hne
  rw [scanJsx_cons, htw, hdr]
  simp [hie]

theorem scanJsx_plain_front :
    ∀ (l t : List Char), (∀ c ∈ l, (c == '>') = false) →
      scanJsx (l ++ t) = l.map JSeg.plain ++ scanJsx t := by
  intro l
  induction l with
  | nil =>
    intro t _
    simp
  | cons a l ih =>
    intro t h
    have ha := h a (List.mem_cons_self _ _)
    rw [List.cons_append, scanJsx_cons_nongt a (l ++ t) ha,
      ih t (fun c hc => h c (List.mem_cons_of_mem _ hc))]
    simp

theorem wrap_tail_nongt {k : List Char} (hk : jsxClean k = true) :
    ∀ c ∈ obr :: 't' :: '(' :: sq :: (escQ k ++ [sq, ')', cbr, '<']),
      (c == '>') = false := by
  intro c hc
  simp only [List.mem_cons, List.mem_append, List.mem_nil_iff, or_false] at hc
  rcases hc with rfl | rfl | rfl | rfl | hc | rfl | rfl | rfl | rfl
  · decide
  · decide
  · decide
  · decide
  · rcases mem_escQ hc with rfl | rfl | hc2
    · decide
    · decide
    · exact clean_not_gt hk hc2
  · decide
  · decide
  · decide
  · decide

/-- Scanning a wrapped replacement never finds a match inside it (and resumes
cleanly after it) when the key is free of the stop characters. -/
theorem scanJsx_wrap (k t : List Char) (hk : jsxClean k = true) :
    scanJsx (jsxWrap k ++ t) =
      JSeg.plain '>' ::
        ((obr :: 't' :: '(' :: sq :: (escQ k ++ [sq, ')', cbr, '<'])).map JSeg.plain
          ++ scanJsx t) := by
  have h1 : jsxWrap k ++ t =
      '>' :: ((obr :: 't' :: '(' :: sq :: (escQ k ++ [sq, ')', cbr, '<'])) ++ t) := by
    simp [jsxWrap]
  rw [h1]
  have hobr : (!jsxStop obr) = false := by decide
  have htw : ((obr :: 't' :: '(' :: sq :: (escQ k ++ [sq, ')', cbr, '<'])) ++ t).takeWhile
      (fun d => !jsxStop d) = [] := by
    simp [List.cons_append, List.takeWhile_cons, hobr]
  have hd : ((obr :: 't' :: '(' :: sq :: (escQ k ++ [sq, ')', cbr, '<'])) ++ t).drop
      ((((obr :: 't' :: '(' :: sq :: (escQ k ++ [sq, ')', cbr, '<'])) ++ t).takeWhile
        (fun d => !jsxStop d)).length) =
      obr :: (('t' :: '(' :: sq :: (escQ k ++ [sq, ')', cbr, '<'])) ++ t) := by
    rw [htw]
    simp
  rw [scanJsx_gt_nomatch _ _ _ hd (by simp [show (obr == '<') = false from by decide])]
  rw [scanJsx_plain_front _ t (wrap_tail_nongt hk)]

theorem runJsxSegs_plain_front (V : List Char → Bool) (strat : KeyStrategy) :
    ∀ (l : List Char) (segs : List JSeg) (R : Registry),
      runJsxSegs V strat (l.map JSeg.plain ++ segs) R =
        ⟨l ++ (runJsxSegs V strat segs R).content,
         (runJsxSegs V strat segs R).reg, (runJsxSegs V strat segs R).count⟩ := by
  intro l
  induction l with
  | nil =>
    intro segs R
    rfl
  | cons a l ih =>
    intro segs R
    rw [List.map_cons, List.cons_append, runJsxSegs_plain, ih]
    rfl

/-! ## The transformed content agrees with the source up to the first stop
character (so a plain `>` fails to match again for the same reason) -/

theorem runJsx_cons_nongt (V : List Char → Bool) (strat : KeyStrategy)
    (c : Char) (rest : List Char) (R : Registry) (hc : (c == '>') = false) :
    runJsxSegs V strat (scanJsx (c :: rest)) R =
      ⟨c :: (runJsxSegs V strat (scanJsx rest) R).content,
       (runJsxSegs V strat (scanJsx rest) R).reg,
       (runJsxSegs V strat (scanJsx rest) R).count⟩ := by
  rw [scanJsx_cons_nongt c rest hc, runJsxSegs_plain]

theorem runJsx_gt_head (V : List Char → Bool) (strat : KeyStrategy)
    (rest : List Char) (R : Registry) :
    ∃ u, (runJsxSegs V strat (scanJsx ('>' :: rest)) R).content = '>' :: u := by
  cases hd : rest.drop ((rest.takeWhile (fun d => !jsxStop d)).length) with
  | nil =>
    rw [scanJsx_gt_nil rest hd, runJsxSegs_plain]
    exact ⟨_, rfl⟩
  | cons d after =>
    by_cases hcond : (d == '<' && !(rest.takeWhile (fun d => !jsxStop d)).isEmpty) = true
    · rw [scanJsx_gt_match rest d after hd hcond]
      by_cases hg : jsxGuard (rest.takeWhile (fun d => !jsxStop d)) = true
      · rw [runJsxSegs_guard _ _ _ _ _ hg]
        exact ⟨_, rfl⟩
      · simp only [Bool.not_eq_true] at hg
        by_cases hv : V (trim (rest.takeWhile (fun d => !jsxStop d))) = true
        · rw [runJsxSegs_wrap _ _ _ _ _ hg hv]
          exact ⟨_, rfl⟩
        · simp only [Bool.not_eq_true] at hv
          rw [runJsxSegs_skip _ _ _ _ _ hg hv]
          exact ⟨_, rfl⟩
    · simp only [Bool.not_eq_true] at hcond
      rw [scanJsx_gt_nomatch rest d after hd hcond, runJsxSegs_plain]
      exact ⟨_, rfl⟩

theorem runJsx_stopAgree (V : List Char → Bool) (strat : KeyStrategy) :
    ∀ (s : List Char) (R : Registry),
      (runJsxSegs V strat (scanJsx s) R).content.takeWhile (fun c => !jsxStop c)
          = s.takeWhile (fun c => !jsxStop c) ∧
      ((runJsxSegs V strat (scanJsx s) R).content.drop
            ((s.takeWhile (fun c => !jsxStop c)).length)).head?
          = (s.drop ((s.takeWhile (fun c => !jsxStop c)).length)).head? := by
  suffices h : ∀ n (s : List Char), s.length = n → ∀ R,
      (runJsxSegs V strat (scanJsx s) R).content.takeWhile (fun c => !jsxStop c)
          = s.takeWhile (fun c => !jsxStop c) ∧
      ((runJsxSegs V strat (scanJsx s) R).content.drop
            ((s.takeWhile (fun c => !jsxStop c)).length)).head?
          = (s.drop ((s.takeWhile (fun c => !jsxStop c)).length)).head? from
    fun s R => h s.length s rfl R
  intro n
  induction n using Nat.strong_induction_on with
  | _ n ih =>
    intro s hn R
    cases s with
    | nil => exact ⟨rfl, rfl⟩
    | cons c rest =>
      by_cases hst : jsxStop c = true
      · have htw : (c :: rest).takeWhile (fun e => !jsxStop e) = [] := by
          simp [List.takeWhile_cons, hst]
        rw [htw]
        by_cases hc : (c == '>') = true
        · have hc2 : c = '>' := by simpa using hc
          subst hc2
          obtain ⟨u, hu⟩ := runJsx_gt_head V strat rest R
          rw [hu]
          constructor
          · simp [List.takeWhile_cons, hst]
          · simp
        · simp only [Bool.not_eq_true] at hc
          rw [runJsx_cons_nongt V strat c rest R hc]
          constructor
          · simp [List.takeWhile_cons, hst]
          · simp
      · simp only [Bool.not_eq_true] at hst
        have hc : (c == '>') = false := by
          have h2 := hst
          simp only [jsxStop, Bool.or_eq_false_iff] at h2
          exact h2.1.2
        have hnst : (!jsxStop c) = true := by simp [hst]
        have htw : (c :: rest).takeWhile (fun e => !jsxStop e)
            = c :: rest.takeWhile (fun e => !jsxStop e) := by
          simp [List.takeWhile_cons, hst]
        rw [htw, runJsx_cons_nongt V strat c rest R hc]
        obtain ⟨ih1, ih2⟩ :=
          ih rest.length (by simp only [← hn, List.length_cons]; omega) rest rfl R
        constructor
        · rw [List.takeWhile_cons, if_pos hnst, ih1]
        · simp only [List.length_cons, List.drop_succ_cons]
          exact ih2

/-- Re-scanning a plain `>` that failed to match in the first pass fails
again on the transformed remainder. -/
theorem scanJsx_gt_replay (V : List Char → Bool) (strat : KeyStrategy)
    (rest : List Char) (R : Registry)
    (hfail : rest.drop ((rest.takeWhile (fun d => !jsxStop d)).length) = [] ∨
      ∃ d after,
        rest.drop ((rest.takeWhile (fun d => !jsxStop d)).length) = d :: after ∧
        (d == '<' && !(rest.takeWhile (fun d => !jsxStop d)).isEmpty) = false) :
    scanJsx ('>' :: (runJsxSegs V strat (scanJsx rest) R).content) =
      JSeg.plain '>' :: scanJsx ((runJsxSegs V strat (scanJsx rest) R).content) := by
  obtain ⟨htw, hhd⟩ := runJsx_stopAgree V strat rest R
  rcases hfail with hnil | ⟨d, after, hcons, hcond⟩
  · have h1 : ((runJsxSegs V strat (scanJsx rest) R).content.drop
        ((rest.takeWhile (fun c => !jsxStop c)).length)).head? = none := by
      rw [hhd, hnil]
      rfl
    have h2 : (runJsxSegs V strat (scanJsx rest) R).content.drop
        (((runJsxSegs V strat (scanJsx rest) R).content.takeWhile
          (fun c => !jsxStop c)).length) = [] := by
      rw [htw]
      exact List.head?_eq_none_iff.mp h1
    exact scanJsx_gt_nil _ h2
  · have h1 : ((runJsxSegs V strat (scanJsx rest) R).content.drop
        ((rest.takeWhile (fun c => !jsxStop c)).length)).head? = some d := by
      rw [hhd, hcons]
      rfl
    obtain ⟨after2, h2⟩ : ∃ a2, (runJsxSegs V strat (scanJsx rest) R).content.drop
        ((rest.takeWhile (fun c => !jsxStop c)).length) = d :: a2 := by
      cases hcase : (runJsxSegs V strat (scanJsx rest) R).content.drop
          ((rest.takeWhile (fun c => !jsxStop c)).length) with
      | nil =>
        rw [hcase] at h1
        simp at h1
      | cons e a2 =>
        rw [hcase] at h1
        simp only [List.head?_cons, Option.some.injEq] at h1
        exact ⟨a2, by rw [h1]⟩
    have h3 : (runJsxSegs V strat (scanJsx rest) R).content.drop
        (((runJsxSegs V strat (scanJsx rest) R).content.takeWhile
          (fun c => !jsxStop c)).length) = d :: after2 := by
      rw [htw]
      exact h2
    have hcond2 : (d == '<' &&
        !((runJsxSegs V strat (scanJsx rest) R).content.takeWhile
          (fun c => !jsxStop c)).isEmpty) = false := by
      rw [htw]
      exact hcond
    exact scanJsx_gt_nomatch _ d after2 h3 hcond2

/-- The JSX-text pass is idempotent under the text strategy: run again on its
own output, with the registry it produced, it changes nothing and counts zero
replacements — provided the starting registry held only keys free of the stop
characters (which the keys the pass itself creates always are). -/
theorem runJsx_idem (V : List Char → Bool) :
    ∀ (s : List Char) (R : Registry), regClean R = true →
      runJsxSegs V KeyStrategy.text
          (scanJsx ((runJsxSegs V KeyStrategy.text (scanJsx s) R).content))
          ((runJsxSegs V KeyStrategy.text (scanJsx s) R).reg) =
        ⟨(runJsxSegs V KeyStrategy.text (scanJsx s) R).content,
         (runJsxSegs V KeyStrategy.text (scanJsx s) R).reg, 0⟩ := by
  suffices h : ∀ n (s : List Char), s.length = n → ∀ R, regClean R = true →
      runJsxSegs V KeyStrategy.text
          (scanJsx ((runJsxSegs V KeyStrategy.text (scanJsx s) R).content))
          ((runJsxSegs V KeyStrategy.text (scanJsx s) R).reg) =
        ⟨(runJsxSegs V KeyStrategy.text (scanJsx s) R).content,
         (runJsxSegs V KeyStrategy.text (scanJsx s) R).reg, 0⟩ from
    fun s R hR => h s.length s rfl R hR
  intro n
  induction n using Nat.strong_induction_on with
  | _ n ih =>
    intro s hn R hR
    cases s with
    | nil => rfl
    | cons c rest =>
      by_cases hc : (c == '>') = true
      · have hc2 : c = '>' := by simpa using hc
        subst hc2
        cases hd : rest.drop ((rest.takeWhile (fun d => !jsxStop d)).length) with
        | nil =>
          have e1 : runJsxSegs V KeyStrategy.text (scanJsx ('>' :: rest)) R =
              ⟨'>' :: (runJsxSegs V KeyStrategy.text (scanJsx rest) R).content,
               (runJsxSegs V KeyStrategy.text (scanJsx rest) R).reg,
               (runJsxSegs V KeyStrategy.text (scanJsx rest) R).count⟩ := by
            rw [scanJsx_gt_nil rest hd, runJsxSegs_plain]
          have ec : (runJsxSegs V KeyStrategy.text (scanJsx ('>' :: rest)) R).content =
              '>' :: (runJsxSegs V KeyStrategy.text (scanJsx rest) R).content := by
            rw [e1]
          have er : (runJsxSegs V KeyStrategy.text (scanJsx ('>' :: rest)) R).reg =
              (runJsxSegs V KeyStrategy.text (scanJsx rest) R).reg := by
            rw [e1]
          rw [ec, er, scanJsx_gt_replay V KeyStrategy.text rest R (Or.inl hd),
            runJsxSegs_plain,
            ih rest.length (by simp only [← hn, List.length_cons]; omega) rest rfl R hR]
        | cons d after =>
          by_cases hcond :
              (d == '<' && !(rest.takeWhile (fun d => !jsxStop d)).isEmpty) = true
          · have hmem : JSeg.jmatch (rest.takeWhile (fun d => !jsxStop d)) ∈
                scanJsx ('>' :: rest) := by
              rw [scanJsx_gt_match rest d after hd hcond]
              exact List.mem_cons_self _ _
            obtain ⟨hne, hcl⟩ := scanJsx_wf _ _ hmem
            have hlen : after.length < rest.length := by
              have := congrArg List.length hd
              simp only [List.length_drop, List.length_cons] at this
              omega
            by_cases hg : jsxGuard (rest.takeWhile (fun d => !jsxStop d)) = true
            · have e1 : runJsxSegs V KeyStrategy.text (scanJsx ('>' :: rest)) R =
                  ⟨jsegRaw (JSeg.jmatch (rest.takeWhile (fun d => !jsxStop d))) ++
                    (runJsxSegs V KeyStrategy.text (scanJsx after) R).content,
                   (runJsxSegs V KeyStrategy.text (scanJsx after) R).reg,
                   (runJsxSegs V KeyStrategy.text (scanJsx after) R).count⟩ := by
                rw [scanJsx_gt_match rest d after hd hcond,
                  runJsxSegs_guard _ _ _ _ _ hg]
              have ec : (runJsxSegs V KeyStrategy.text (scanJsx ('>' :: rest)) R).content =
                  '>' :: ((rest.takeWhile (fun d => !jsxStop d)) ++
                    '<' :: (runJsxSegs V KeyStrategy.text (scanJsx after) R).content) := by
                rw [e1]
                simp [jsegRaw, List.append_assoc]
              have er : (runJsxSegs V KeyStrategy.text (scanJsx ('>' :: rest)) R).reg =
                  (runJsxSegs V KeyStrategy.text (scanJsx after) R).reg := by
                rw [e1]
              rw [ec, er, scanJsx_rawmatch _ _ hne hcl,
                runJsxSegs_guard _ _ _ _ _ hg,
                ih after.length (by simp only [← hn, List.length_cons]; omega)
                  after rfl R hR]
              simp [jsegRaw, List.append_assoc]
            · simp only [Bool.not_eq_true] at hg
              by_cases hv : V (trim (rest.takeWhile (fun d => !jsxStop d))) = true
              · obtain ⟨hk1, hk2⟩ :=
                  @getOrCreateKey_text_clean R
                    (trim (rest.takeWhile (fun d => !jsxStop d))) hR
                    (by rw [trim_trim]; exact jsxClean_trim hcl)
                have e1 : runJsxSegs V KeyStrategy.text (scanJsx ('>' :: rest)) R =
                    ⟨jsxWrap (getOrCreateKey KeyStrategy.text R
                        (trim (rest.takeWhile (fun d => !jsxStop d)))).1 ++
                      (runJsxSegs V KeyStrategy.text (scanJsx after)
                        (getOrCreateKey KeyStrategy.text R
                          (trim (rest.takeWhile (fun d => !jsxStop d)))).2).content,
                     (runJsxSegs V KeyStrategy.text (scanJsx after)
                        (getOrCreateKey KeyStrategy.text R
                          (trim (rest.takeWhile (fun d => !jsxStop d)))).2).reg,
                     (runJsxSegs V KeyStrategy.text (scanJsx after)
                        (getOrCreateKey KeyStrategy.text R
                          (trim (rest.takeWhile (fun d => !jsxStop d)))).2).count + 1⟩ := by
                  rw [scanJsx_gt_match rest d after hd hcond,
                    runJsxSegs_wrap _ _ _ _ _ hg hv]
                have ec : (runJsxSegs V KeyStrategy.text (scanJsx ('>' :: rest)) R).content =
                    jsxWrap (getOrCreateKey KeyStrategy.text R
                        (trim (rest.takeWhile (fun d => !jsxStop d)))).1 ++
                      (runJsxSegs V KeyStrategy.text (scanJsx after)
                        (getOrCreateKey KeyStrategy.text R
                          (trim (rest.takeWhile (fun d => !jsxStop d)))).2).content := by
                  rw [e1]
                have er : (runJsxSegs V KeyStrategy.text (scanJsx ('>' :: rest)) R).reg =
                    (runJsxSegs V KeyStrategy.text (scanJsx after)
                      (getOrCreateKey KeyStrategy.text R
                        (trim (rest.takeWhile (fun d => !jsxStop d)))).2).reg := by
                  rw [e1]
                rw [ec, er, scanJsx_wrap _ _ hk1, runJsxSegs_plain,
                  runJsxSegs_plain_front,
                  ih after.length (by simp only [← hn, List.length_cons]; omega)
                    after rfl _ hk2]
                rfl
              · simp only [Bool.not_eq_true] at hv
                have e1 : runJsxSegs V KeyStrategy.text (scanJsx ('>' :: rest)) R =
                    ⟨jsegRaw (JSeg.jmatch (rest.takeWhile (fun d => !jsxStop d))) ++
                      (runJsxSegs V KeyStrategy.text (scanJsx after) R).content,
                     (runJsxSegs V KeyStrategy.text (scanJsx after) R).reg,
                     (runJsxSegs V KeyStrategy.text (scanJsx after) R).count⟩ := by
                  rw [scanJsx_gt_match rest d after hd hcond,
                    runJsxSegs_skip _ _ _ _ _ hg hv]
                have ec : (runJsxSegs V KeyStrategy.text (scanJsx ('>' :: rest)) R).content =
                    '>' :: ((rest.takeWhile (fun d => !jsxStop d)) ++
                      '<' :: (runJsxSegs V KeyStrategy.text (scanJsx after) R).content) := by
                  rw [e1]
                  simp [jsegRaw, List.append_assoc]
                have er : (runJsxSegs V KeyStrategy.text (scanJsx ('>' :: rest)) R).reg =
                    (runJsxSegs V KeyStrategy.text (scanJsx after) R).reg := by
                  rw [e1]
                rw [ec, er, scanJsx_rawmatch _ _ hne hcl,
                  runJsxSegs_skip _ _ _ _ _ hg hv,
                  ih after.length (by simp only [← hn, List.length_cons]; omega)
                    after rfl R hR]
                simp [jsegRaw, List.append_assoc]
          · simp only [Bool.not_eq_true] at hcond
            have e1 : runJsxSegs V KeyStrategy.text (scanJsx ('>' :: rest)) R =
                ⟨'>' :: (runJsxSegs V KeyStrategy.text (scanJsx rest) R).content,
                 (runJsxSegs V KeyStrategy.text (scanJsx rest) R).reg,
                 (runJsxSegs V KeyStrategy.text (scanJsx rest) R).count⟩ := by
              rw [scanJsx_gt_nomatch rest d after hd hcond, runJsxSegs_plain]
            have ec : (runJsxSegs V KeyStrategy.text (scanJsx ('>' :: rest)) R).content =
                '>' :: (runJsxSegs V KeyStrategy.text (scanJsx rest) R).content := by
              rw [e1]
            have er : (runJsxSegs V KeyStrategy.text (scanJsx ('>' :: rest)) R).reg =
                (runJsxSegs V KeyStrategy.text (scanJsx rest) R).reg := by
              rw [e1]
            rw [ec, er,
              scanJsx_gt_replay V KeyStrategy.text rest R
                (Or.inr ⟨d, after, hd, hcond⟩),
              runJsxSegs_plain,
              ih rest.length (by simp only [← hn, List.length_cons]; omega) rest rfl R hR]
      · simp only [Bool.not_eq_true] at hc
        rw [runJsx_cons_nongt V KeyStrategy.text c rest R hc]
        rw [runJsx_cons_nongt V KeyStrategy.text c
          (runJsxSegs V KeyStrategy.text (scanJsx rest) R).content
          (runJsxSegs V KeyStrategy.text (scanJsx rest) R).reg hc]
        rw [ih rest.length (by simp only [← hn, List.length_cons]; omega) rest rfl R hR]

/-- C2: counterexample to the idempotence claim.  On the quote-cascade input
`cexC2`, with the default configuration (text strategy, default validator)
and an empty registry, the first application of `transformJSXElements`
rewrites one attribute and realigns the quote cells of the remainder; the
second application then finds and wraps a fresh match, so it neither
preserves the content nor reports a replacement count of zero. -/
theorem C2_full_idempotence_counterexample :
    ¬((transformJSXElements validDefault KeyStrategy.text
          (transformJSXElements validDefault KeyStrategy.text [] cexC2).reg
          (transformJSXElements validDefault KeyStrategy.text [] cexC2).content).content =
        (transformJSXElements validDefault KeyStrategy.text [] cexC2).content ∧
      (transformJSXElements validDefault KeyStrategy.text
          (transformJSXElements validDefault KeyStrategy.text [] cexC2).reg
          (transformJSXElements validDefault KeyStrategy.text [] cexC2).content).count = 0) := by
  set_option maxRecDepth 10000 in decide

/-- C2 (amended): the idempotence claim holds for the JSX-text pattern of
`transformJSXElements` (its first and only pass over `>TEXT<` runs): applied
to its own output, with the registry it produced, the JSX-text pass returns
the content unchanged with a replacement count of zero, for any validator and
the default text key strategy, whenever every key of the starting registry is
free of the capture-class stop characters (as every key the pass itself
creates is).  Full idempotence of `transformJSXElements` fails only through
the attribute patterns, whose quote cells realign after a rewrite
(`C2_full_idempotence_counterexample`). -/
theorem C2_jsx_half_idempotent (V : List Char → Bool) (s : List Char)
    (R : Registry) (hR : regClean R = true) :
    replaceJsxPass V KeyStrategy.text
        (replaceJsxPass V KeyStrategy.text R s).reg
        (replaceJsxPass V KeyStrategy.text R s).content =
      ⟨(replaceJsxPass V KeyStrategy.text R s).content,
       (replaceJsxPass V KeyStrategy.text R s).reg, 0⟩ :=
  runJsx_idem V s R hR

/-- Witness for `C2_jsx_half_idempotent` at a concrete input. -/
theorem C2_jsx_half_idempotent_witness :
    regClean [] = true ∧
    replaceJsxPass validDefault KeyStrategy.text
        (replaceJsxPass validDefault KeyStrategy.text []
          "<p>Save Changes</p>".data).reg
        (replaceJsxPass validDefault KeyStrategy.text []
          "<p>Save Changes</p>".data).content =
      ⟨(replaceJsxPass validDefault KeyStrategy.text []
          "<p>Save Changes</p>".data).content,
        (replaceJsxPass validDefault KeyStrategy.text []
          "<p>Save Changes</p>".data).reg, 0⟩ :=
  ⟨rfl, C2_jsx_half_idempotent validDefault "<p>Save Changes</p>".data [] rfl⟩

/-- C7: error isolation.  (i) A file whose processing throws is caught: its
message is appended to the statistics and the loop state is otherwise
untouched, so the remaining files are processed exactly as before.  (ii) An
error thrown by catalog generation aborts the run with success false and the
statistics accumulated by the per-file loop (plus the failure message), the
writes already performed standing.  (iii) An error thrown by backup creation
aborts the run before any file is processed. -/
theorem C7_error_isolation (cfg : ComponentsCfg) (V : List Char → Bool)
    (strat : KeyStrategy) (applyImport applyHook : List Char → List Char) :
    (∀ (st : LoopState) (slot : FileSlot) (e : List Char),
      slot.load = Except.error e →
      processSlot cfg V strat applyImport applyHook st slot =
        ⟨{ st.stats with errors := st.stats.errors ++
            ["Error transforming ".data ++ slot.path ++ ": ".data ++ e] },
         st.reg, st.written⟩) ∧
    (∀ (R0 : Registry) (spec : RunSpec) (e : List Char),
      spec.createBackup = false ∨ spec.backupResult = Except.ok () →
      spec.catalogResult = Except.error e →
      transformRun cfg V strat applyImport applyHook R0 spec =
        ⟨false,
         { (spec.files.foldl (processSlot cfg V strat applyImport applyHook)
              ⟨statsInit, R0, []⟩).stats with
            errors := (spec.files.foldl (processSlot cfg V strat applyImport applyHook)
              ⟨statsInit, R0, []⟩).stats.errors ++
              ["Transformation failed: ".data ++ e] },
         (spec.files.foldl (processSlot cfg V strat applyImport applyHook)
            ⟨statsInit, R0, []⟩).reg,
         [],
         (spec.files.foldl (processSlot cfg V strat applyImport applyHook)
            ⟨statsInit, R0, []⟩).written⟩) ∧
    (∀ (R0 : Registry) (spec : RunSpec) (e : List Char),
      spec.createBackup = true → spec.backupResult = Except.error e →
      transformRun cfg V strat applyImport applyHook R0 spec =
        ⟨false, { statsInit with errors := ["Transformation failed: ".data ++ e] },
         R0, [], []⟩) := by
  refine ⟨?_, ?_, ?_⟩
  · intro st slot e hload
    simp [processSlot, hload]
  · intro R0 spec e hbk hcat
    rcases hbk with hb | hb
    · simp [transformRun, hb, hcat]
    · cases hcb : spec.createBackup
      · simp [transformRun, hcb, hcat]
      · simp [transformRun, hcb, hb, hcat]
  · intro R0 spec e h1 h2
    simp [transformRun, h1, h2]

/-- Witness for `C7_error_isolation` on concrete runs: a throwing file only
extends the error list, a catalog failure aborts with the accumulated
statistics and a backup failure aborts up front. -/
theorem C7_error_isolation_witness :
    (processSlot cfgA validDefault KeyStrategy.text (fun c => c) (fun c => c)
        ⟨statsInit, [], []⟩ slotBad =
      ⟨{ statsInit with errors := statsInit.errors ++
          ["Error transforming ".data ++ slotBad.path ++ ": ".data ++ "fail".data] },
       [], []⟩) ∧
    (transformRun cfgA validDefault KeyStrategy.text (fun c => c) (fun c => c)
        [] specCatErr =
      ⟨false,
       { (specCatErr.files.foldl
            (processSlot cfgA validDefault KeyStrategy.text (fun c => c) (fun c => c))
            ⟨statsInit, [], []⟩).stats with
          errors := (specCatErr.files.foldl
            (processSlot cfgA validDefault KeyStrategy.text (fun c => c) (fun c => c))
            ⟨statsInit, [], []⟩).stats.errors ++
            ["Transformation failed: ".data ++ "nodir".data] },
       (specCatErr.files.foldl
          (processSlot cfgA validDefault KeyStrategy.text (fun c => c) (fun c => c))
          ⟨statsInit, [], []⟩).reg,
       [],
       (specCatErr.files.foldl
          (processSlot cfgA validDefault KeyStrategy.text (fun c => c) (fun c => c))
          ⟨statsInit, [], []⟩).written⟩) ∧
    (transformRun cfgA validDefault KeyStrategy.text (fun c => c) (fun c => c)
        [] specBakErr =
      ⟨false, { statsInit with errors :=
          ["Transformation failed: ".data ++ "copy".data] }, [], [], []⟩) := by
  obtain ⟨h1, h2, h3⟩ :=
    C7_error_isolation cfgA validDefault KeyStrategy.text (fun c => c) (fun c => c)
  exact ⟨h1 ⟨statsInit, [], []⟩ slotBad "fail".data rfl,
    h2 [] specCatErr "nodir".data (Or.inl rfl) rfl,
    h3 [] specBakErr "copy".data rfl rfl⟩

/-- C8: counterexample to the modifiedFiles half of the claim.  In a run over
the single file `slotA` — which needs no import, no hook and no rewrite, and
is therefore never re-saved (`written = []`) — the result still reports the
file in `modifiedFiles`. -/
theorem C8_modifiedFiles_counterexample :
    (transformRun cfgA validDefault KeyStrategy.text (fun c => c) (fun c => c)
        [] specA).written = [] ∧
    (transformRun cfgA validDefault KeyStrategy.text (fun c => c) (fun c => c)
        [] specA).modifiedFiles = ["src/App.tsx".data] := by
  decide

/-- C8 (amended): a file whose transformation fired no change trigger keeps
its original content and is not written back — but `modifiedFiles` is the
full discovered file list (`modifiedFiles: files`), regardless of which
files were actually saved. -/
theorem C8_frame_and_modifiedFiles (cfg : ComponentsCfg) (V : List Char → Bool)
    (strat : KeyStrategy) (applyImport applyHook : List Char → List Char)
    (R R0 : Registry) (spec : RunSpec) (f : TFileBody)
    (hbk : spec.createBackup = false ∨ spec.backupResult = Except.ok ())
    (hcat : spec.catalogResult = Except.ok ()) :
    ((transformFileModel cfg V strat applyImport applyHook R f).saved = false →
      (transformFileModel cfg V strat applyImport applyHook R f).content
        = f.content) ∧
    (transformRun cfg V strat applyImport applyHook R0 spec).modifiedFiles =
      spec.files.map (fun s => s.path) := by
  constructor
  · intro hs
    simp only [transformFileModel] at hs ⊢
    simp [hs]
  · rcases hbk with hb | hb
    · simp [transformRun, hb, hcat]
    · cases hcb : spec.createBackup
      · simp [transformRun, hcb, hcat]
      · simp [transformRun, hcb, hb, hcat]

/-- Witness for `C8_frame_and_modifiedFiles` on the concrete run `specA`. -/
theorem C8_frame_and_modifiedFiles_witness :
    (specA.createBackup = false ∨ specA.backupResult = Except.ok ()) ∧
    specA.catalogResult = Except.ok () ∧
    (transformFileModel cfgA validDefault KeyStrategy.text (fun c => c)
        (fun c => c) [] bodyA).saved = false ∧
    (transformFileModel cfgA validDefault KeyStrategy.text (fun c => c)
        (fun c => c) [] bodyA).content = bodyA.content ∧
    (transformRun cfgA validDefault KeyStrategy.text (fun c => c) (fun c => c)
        [] specA).modifiedFiles = specA.files.map (fun s => s.path) := by
  refine ⟨Or.inl rfl, rfl, by decide, ?_, ?_⟩
  · exact (C8_frame_and_modifiedFiles cfgA validDefault KeyStrategy.text
      (fun c => c) (fun c => c) [] [] specA bodyA (Or.inl rfl) rfl).1 (by decide)
  · exact (C8_frame_and_modifiedFiles cfgA validDefault KeyStrategy.text
      (fun c => c) (fun c => c) [] [] specA bodyA (Or.inl rfl) rfl).2

end RAI
